import Mathlib

/-! my_malloc: a fixed-arena first-fit allocator

A shallow embedding of `src/my_malloc.c` and theorems about it.

Memory model.

The C program threads an intrusive singly linked list of `block_t` headers
through the static byte array `heap_buffer`.  The embedding keeps that shape:

* a pointer into the arena is the byte offset from `heap_buffer`
  (`Option Nat`, `none` is `NULL`);
* the arena is a map from header offset to the header stored there
  (`Nat → block_t`); the payload bytes are never read by the allocator and are
  not modelled;
* `size_t` is 64 bits wide: every `size_t` expression is reduced `% 2^64`
  exactly where the C expression is evaluated (`SIZE_MOD`);
* `sizeof(block_t)` is 24 (8-byte `size_t`, 4-byte `int` padded to 8, 8-byte
  pointer), the LP64 layout;
* the `while` loops walk `next` links, which may form a cycle, so every loop
  takes a fuel argument and answers `none` when the fuel runs out before the
  loop exits.

The header map is exact whenever two headers written into the arena occupy
either the same 24 bytes or disjoint ones, which is the case in every
well-formed state (`WellFormed`) and in every trace evaluated on it below.
Where two headers share only some of their bytes, the fields of one are bytes of
the other; the namespace `Layout` models the arena at that level (fields at
their LP64 little-endian offsets) and is used for the traces that need it.

Both models describe the bytes of `heap_buffer` only.  After a wrapped request
`request_space` can place a header whose 24 bytes are not all inside the array
(offset above `HEAP_SIZE - 24`); in the program such a write lands on whatever
object follows `heap_buffer` in memory, possibly the allocator's own globals,
which the source does not determine.  The models keep such a header at its
offset like any other.  Every trace evaluated below keeps its headers inside
the array, and so does every well-formed state.
-/

namespace MyMalloc

/-! ## Data model -/

/-- The modulus of `size_t` arithmetic (64-bit unsigned). -/
def SIZE_MOD : Nat := 2 ^ 64

/-- The record `block_t` of `my_malloc.c`: payload size, free flag (a C `int`,
tested for being non-zero) and the link to the next header. -/
structure block_t where
  size : Nat
  is_free : Int
  next : Option Nat
deriving DecidableEq, Repr

/-- The constant `MIN_BLOCK_SIZE`. -/
def MIN_BLOCK_SIZE : Nat := 32

/-- The constant `BLOCK_HEADER_SIZE`, that is `sizeof(block_t)`. -/
def BLOCK_HEADER_SIZE : Nat := 24

/-- The constant `HEAP_SIZE`, the capacity of `heap_buffer`. -/
def HEAP_SIZE : Nat := 1024 * 1024 * 10

/-- The allocator's global variables: the arena contents (`heap_buffer`, seen as
the headers stored in it), `heap_start`, `heap_offset` and `heap_initialized`. -/
structure Heap where
  mem : Nat → block_t
  heap_start : Option Nat
  heap_offset : Nat
  heap_initialized : Bool

/-- The header read from zero-initialised static storage. -/
def zero_block : block_t := { size := 0, is_free := 0, next := none }

/-- The state at program start: `heap_buffer` zeroed, `heap_start = NULL`,
`heap_offset = 0`, `heap_initialized = 0`. -/
def empty_heap : Heap :=
  { mem := fun _ => zero_block, heap_start := none, heap_offset := 0,
    heap_initialized := false }

/-- The assignment `p->size = v`. -/
def set_size (mem : Nat → block_t) (p v : Nat) : Nat → block_t :=
  Function.update mem p { mem p with size := v }

/-- The assignment `p->is_free = v`. -/
def set_is_free (mem : Nat → block_t) (p : Nat) (v : Int) : Nat → block_t :=
  Function.update mem p { mem p with is_free := v }

/-- The assignment `p->next = v`. -/
def set_next (mem : Nat → block_t) (p : Nat) (v : Option Nat) : Nat → block_t :=
  Function.update mem p { mem p with next := v }

/-! ## Operations -/

/-- The function `align_size`: `(size + 7) & ~7` in `size_t` arithmetic; `~7` is
the `int` -8, converted to `size_t` as `2^64 - 8`. -/
def align_size (size : Nat) : Nat :=
  ((size + 7) % SIZE_MOD) &&& (SIZE_MOD - 8)

/-- The loop of `find_free_block`, from `current`, with fuel. -/
def find_free_block_loop (mem : Nat → block_t) (size : Nat) :
    Nat → Option Nat → Option (Option Nat)
  | _, none => some none
  | 0, some _ => none
  | fuel + 1, some current =>
    if (mem current).is_free ≠ 0 ∧ (mem current).size ≥ size then
      some (some current)
    else
      find_free_block_loop mem size fuel (mem current).next

/-- The function `find_free_block`: the first block in list order that is free
and large enough, `some none` for `NULL`, `none` when the fuel runs out. -/
def find_free_block (fuel : Nat) (h : Heap) (size : Nat) : Option (Option Nat) :=
  find_free_block_loop h.mem size fuel h.heap_start

/-- The function `split_block`, acting on the arena.  The address of the
remainder header, `(char*)block + BLOCK_HEADER_SIZE + size`, is formed in 64-bit
pointer arithmetic, so its offset is reduced `% 2^64` like every `size_t`. -/
def split_block (mem : Nat → block_t) (block size : Nat) : Nat → block_t :=
  if (mem block).size < (size + BLOCK_HEADER_SIZE + MIN_BLOCK_SIZE) % SIZE_MOD then
    mem
  else
    let new_block := (block + BLOCK_HEADER_SIZE + size) % SIZE_MOD
    let m1 := set_size mem new_block
      (((mem block).size + (SIZE_MOD - size % SIZE_MOD)
          + (SIZE_MOD - BLOCK_HEADER_SIZE)) % SIZE_MOD)
    let m2 := set_is_free m1 new_block 1
    let m3 := set_next m2 new_block (m2 block).next
    let m4 := set_size m3 block size
    set_next m4 block (some new_block)

/-- The function `request_space`: the new block (or `NULL`) and the state.  The
header is written at offset `heap_offset`; the globals `heap_offset` and
`heap_initialized` are not part of `mem`, so a header written past the end of
`heap_buffer` does not reach them here. -/
def request_space (h : Heap) (size : Nat) : Option Nat × Heap :=
  let total_size := (BLOCK_HEADER_SIZE + size) % SIZE_MOD
  if (h.heap_offset + total_size) % SIZE_MOD > HEAP_SIZE then
    (none, h)
  else
    let block := h.heap_offset
    let m1 := set_size h.mem block size
    let m2 := set_is_free m1 block 0
    let m3 := set_next m2 block none
    (some block,
      { h with heap_offset := (h.heap_offset + total_size) % SIZE_MOD, mem := m3 })

/-- The loop `while (current->next) current = current->next;` of `my_malloc`:
the last block of the list starting at `current`. -/
def find_tail (mem : Nat → block_t) : Nat → Nat → Option Nat
  | 0, _ => none
  | fuel + 1, current =>
    match (mem current).next with
    | none => some current
    | some nxt => find_tail mem fuel nxt

/-- The function `my_malloc`: the returned pointer (`none` is `NULL`, otherwise
the payload's offset in the arena) and the state after the call; `none` when a
list walk does not finish within the fuel. -/
def my_malloc (fuel : Nat) (h : Heap) (size : Nat) : Option (Option Nat × Heap) :=
  if size ≤ 0 then
    some (none, h)
  else
    let h0 := { h with heap_initialized := true }
    let size := align_size size
    match h0.heap_start with
    | none =>
      match request_space h0 size with
      | (none, h1) => some (none, h1)
      | (some block, h1) =>
        some (some (block + BLOCK_HEADER_SIZE), { h1 with heap_start := some block })
    | some start =>
      match find_free_block fuel h0 size with
      | none => none
      | some (some block) =>
        let m1 := set_is_free h0.mem block 0
        let m2 := split_block m1 block size
        some (some (block + BLOCK_HEADER_SIZE), { h0 with mem := m2 })
      | some none =>
        match request_space h0 size with
        | (none, h1) => some (none, h1)
        | (some block, h1) =>
          match find_tail h1.mem fuel start with
          | none => none
          | some current =>
            some (some (block + BLOCK_HEADER_SIZE),
              { h1 with mem := set_next h1.mem current (some block) })

/-- The loop of `get_allocated_blocks`, from `current` with running `count`. -/
def get_allocated_blocks_loop (mem : Nat → block_t) :
    Nat → Option Nat → Nat → Option Nat
  | _, none, count => some count
  | 0, some _, _ => none
  | fuel + 1, some current, count =>
    get_allocated_blocks_loop mem fuel (mem current).next
      (if (mem current).is_free = 0 then count + 1 else count)

/-- The function `get_allocated_blocks`: the number of blocks whose free flag is
clear; `none` when the walk does not finish within the fuel. -/
def get_allocated_blocks (fuel : Nat) (h : Heap) : Option Nat :=
  get_allocated_blocks_loop h.mem fuel h.heap_start 0

/-- The loop of `get_total_heap_size`, from `current` with running `total`. -/
def get_total_heap_size_loop (mem : Nat → block_t) :
    Nat → Option Nat → Nat → Option Nat
  | _, none, total => some total
  | 0, some _, _ => none
  | fuel + 1, some current, total =>
    get_total_heap_size_loop mem fuel (mem current).next
      ((total + ((mem current).size + BLOCK_HEADER_SIZE) % SIZE_MOD) % SIZE_MOD)

/-- The function `get_total_heap_size`: the `size_t` sum of
`size + BLOCK_HEADER_SIZE` over the list; `none` when the walk does not finish
within the fuel. -/
def get_total_heap_size (fuel : Nat) (h : Heap) : Option Nat :=
  get_total_heap_size_loop h.mem fuel h.heap_start 0

/-- A sequence of `my_malloc` calls: the pointers returned, in call order, and
the final state. -/
def run_mallocs (fuel : Nat) : Heap → List Nat → Option (List (Option Nat) × Heap)
  | h, [] => some ([], h)
  | h, s :: rest =>
    match my_malloc fuel h s with
    | none => none
    | some (p, h1) =>
      match run_mallocs fuel h1 rest with
      | none => none
      | some (ps, h2) => some (p :: ps, h2)

/-- The states reachable from the empty arena by `my_malloc` calls that return,
each with a request size in the range of `size_t`. -/
inductive Reachable : Heap → Prop
  | empty : Reachable empty_heap
  | step (fuel : Nat) (h h1 : Heap) (size : Nat) (p : Option Nat) :
      Reachable h → size < SIZE_MOD → my_malloc fuel h size = some (p, h1) →
      Reachable h1

/-! ## Observations used to state the properties -/

/-- The header offsets met by walking `next` links from `current`, in list
order; `none` when the walk does not reach `NULL` within the fuel. -/
def block_list_loop (mem : Nat → block_t) : Nat → Option Nat → Option (List Nat)
  | _, none => some []
  | 0, some _ => none
  | fuel + 1, some current =>
    match block_list_loop mem fuel (mem current).next with
    | none => none
    | some rest => some (current :: rest)

/-- The block list of a state: the header offsets from `heap_start` on. -/
def block_list (fuel : Nat) (h : Heap) : Option (List Nat) :=
  block_list_loop h.mem fuel h.heap_start

/-- First byte of the payload of the block whose header is at `block`. -/
def payload_start (block : Nat) : Nat := block + BLOCK_HEADER_SIZE

/-- One past the last payload byte of the block whose header is at `block`. -/
def payload_end (mem : Nat → block_t) (block : Nat) : Nat :=
  block + BLOCK_HEADER_SIZE + (mem block).size

/-- The byte ranges `[a, b)` and `[c, d)` share at least one byte. -/
def ranges_overlap (a b c d : Nat) : Prop := max a c < min b d

instance (a b c d : Nat) : Decidable (ranges_overlap a b c d) := by
  unfold ranges_overlap; infer_instance

/-- The payloads of the blocks at `p` and `q` share a byte. -/
def payloads_overlap (mem : Nat → block_t) (p q : Nat) : Prop :=
  ranges_overlap (payload_start p) (payload_end mem p) (payload_start q) (payload_end mem q)

instance (mem : Nat → block_t) (p q : Nat) : Decidable (payloads_overlap mem p q) := by
  unfold payloads_overlap; infer_instance

/-- The payload of the block at `p` shares a byte with the header of the block
at `q`. -/
def payload_overlaps_header (mem : Nat → block_t) (p q : Nat) : Prop :=
  ranges_overlap (payload_start p) (payload_end mem p) q (q + BLOCK_HEADER_SIZE)

instance (mem : Nat → block_t) (p q : Nat) : Decidable (payload_overlaps_header mem p q) := by
  unfold payload_overlaps_header; infer_instance

/-- Total committed bytes of blocks with payload sizes `szs`: the sum of
`size + BLOCK_HEADER_SIZE`. -/
def committed : List Nat → Nat
  | [] => 0
  | sz :: rest => sz + BLOCK_HEADER_SIZE + committed rest

/-- The list that starts at pointer `p` consists of non-free blocks with payload
sizes `szs`, laid out back to back from offset `a` on and linked in address
order, the last one linked to `NULL`. -/
def Packed (mem : Nat → block_t) : Option Nat → Nat → List Nat → Prop
  | p, _, [] => p = none
  | p, a, sz :: rest =>
    p = some a ∧ (mem a).size = sz ∧ (mem a).is_free = 0 ∧
      Packed mem (mem a).next (a + BLOCK_HEADER_SIZE + sz) rest

/-- The header offsets of blocks with payload sizes `szs` laid out back to back
from offset `a` on. -/
def packed_offsets : Nat → List Nat → List Nat
  | _, [] => []
  | a, sz :: rest => a :: packed_offsets (a + BLOCK_HEADER_SIZE + sz) rest

/-- A state whose block list is packed from offset 0 up to `heap_offset`, with
8-byte aligned sizes, inside the arena. -/
def PackedHeap (h : Heap) (szs : List Nat) : Prop :=
  Packed h.mem h.heap_start 0 szs ∧ h.heap_offset = committed szs ∧
    h.heap_offset ≤ HEAP_SIZE ∧ ∀ sz ∈ szs, sz % 8 = 0

/-- A request size for which no `size_t` expression of `my_malloc` can wrap in
a state with `heap_offset ≤ HEAP_SIZE`. -/
def no_wrap (s : Nat) : Prop := s + HEAP_SIZE + 32 ≤ SIZE_MOD

instance (s : Nat) : Decidable (no_wrap s) := by
  unfold no_wrap; infer_instance

/-- The payload sizes of the blocks that a sequence of requests commits when
the arena holds `used` bytes: a zero request or one that does not fit commits
nothing. -/
def committed_sizes : Nat → List Nat → List Nat
  | _, [] => []
  | used, s :: rest =>
    if s = 0 ∨ used + BLOCK_HEADER_SIZE + (s + 7) / 8 * 8 > HEAP_SIZE then
      committed_sizes used rest
    else
      (s + 7) / 8 * 8 :: committed_sizes (used + BLOCK_HEADER_SIZE + (s + 7) / 8 * 8) rest

/-- The number of calls of a run that returned a non-`NULL` pointer. -/
def successes (ps : List (Option Nat)) : Nat := (ps.filter Option.isSome).length

/-- The test of the `find_free_block` loop on the block at `p`: the free flag is
set and the size is at least `size`. -/
def fits (mem : Nat → block_t) (size p : Nat) : Prop :=
  (mem p).is_free ≠ 0 ∧ (mem p).size ≥ size

instance (mem : Nat → block_t) (size p : Nat) : Decidable (fits mem size p) := by
  unfold fits; infer_instance

/-- The `next` links lead from pointer `p` through exactly the headers `l`, in
this order, and then to `NULL`. -/
def Chain (mem : Nat → block_t) : Option Nat → List Nat → Prop
  | p, [] => p = none
  | p, q :: rest => p = some q ∧ Chain mem (mem q).next rest

/-- The blocks at `p` and `q` (header and payload) share no byte. -/
def disjoint_blocks (mem : Nat → block_t) (p q : Nat) : Prop :=
  payload_end mem p ≤ q ∨ payload_end mem q ≤ p

instance (mem : Nat → block_t) : DecidableRel (disjoint_blocks mem) := by
  intro p q; unfold disjoint_blocks; infer_instance

/-- A well-formed state with block list `l`: the list is `NULL`-terminated, its
blocks are pairwise disjoint and lie below the high-water mark, which is inside
the arena. -/
def WellFormed (h : Heap) (l : List Nat) : Prop :=
  block_list l.length h = some l ∧
    l.Pairwise (disjoint_blocks h.mem) ∧
    (∀ p ∈ l, payload_end h.mem p ≤ h.heap_offset) ∧
    h.heap_offset ≤ HEAP_SIZE

instance (h : Heap) (l : List Nat) : Decidable (WellFormed h l) := by
  unfold WellFormed; infer_instance

/-- A state with three blocks laid out back to back: a 16-byte block in use at
offset 0, a free 8-byte block at offset 40 and a free 200-byte block at offset
72, the high-water mark at 296. -/
def sample_heap : Heap :=
  { mem := fun p =>
      if p = 0 then { size := 16, is_free := 0, next := some 40 }
      else if p = 40 then { size := 8, is_free := 1, next := some 72 }
      else if p = 72 then { size := 200, is_free := 1, next := none }
      else zero_block,
    heap_start := some 0, heap_offset := 296, heap_initialized := true }

/-- A state whose list is `NULL`-terminated but not well formed: a free block of
size 200 at offset 0, and a block in use of size 8 whose header, at offset 40,
lies inside the payload of the first. -/
def overlapping_heap : Heap :=
  { mem := fun p =>
      if p = 0 then { size := 200, is_free := 1, next := some 40 }
      else if p = 40 then { size := 8, is_free := 0, next := none }
      else zero_block,
    heap_start := some 0, heap_offset := 224, heap_initialized := true }

/-- The sum of `size + BLOCK_HEADER_SIZE` over the blocks `l`. -/
def total_of (mem : Nat → block_t) : List Nat → Nat
  | [] => 0
  | p :: rest => (mem p).size + BLOCK_HEADER_SIZE + total_of mem rest

/-! ## Byte layout of overlapping headers

When a request wraps, `request_space` can place a header 8 or 16 bytes behind an
existing one, so that fields of two `block_t` records share bytes.  The model
below keeps the arena as 8-byte words at byte offsets 0, 8, 16, ... and reads
and writes each field where the LP64 little-endian layout puts it: `size` is
the word at `p`, `is_free` the low 32 bits of the word at `p + 8`, `next` the
word at `p + 16`.  A stored pointer is an address: `NULL` is 0 and
`heap_buffer + off` is `base + off`, where `base` is the address of
`heap_buffer`. -/

namespace Layout

/-- The word stored for a pointer. -/
def encode (base : Nat) : Option Nat → Nat
  | none => 0
  | some off => base + off

/-- The pointer read from a word. -/
def decode (base : Nat) (w : Nat) : Option Nat :=
  if w = 0 then none else some (w - base)

/-- The allocator's global variables, the arena as 8-byte words. -/
structure Heap where
  words : Nat → Nat
  heap_start : Option Nat
  heap_offset : Nat
  heap_initialized : Bool

/-- The state at program start. -/
def empty_heap : Heap :=
  { words := fun _ => 0, heap_start := none, heap_offset := 0, heap_initialized := false }

/-- The value of `p->size`. -/
def get_size (m : Nat → Nat) (p : Nat) : Nat := m p

/-- The value of `p->is_free`, as a bit pattern. -/
def get_is_free (m : Nat → Nat) (p : Nat) : Nat := m (p + 8) % 2 ^ 32

/-- The value of `p->next`. -/
def get_next (base : Nat) (m : Nat → Nat) (p : Nat) : Option Nat := decode base (m (p + 16))

/-- The assignment `p->size = v`. -/
def set_size (m : Nat → Nat) (p v : Nat) : Nat → Nat := Function.update m p v

/-- The assignment `p->is_free = v`: the upper half of the word is padding and
keeps its bytes. -/
def set_is_free (m : Nat → Nat) (p v : Nat) : Nat → Nat :=
  Function.update m (p + 8) (m (p + 8) / 2 ^ 32 * 2 ^ 32 + v)

/-- The assignment `p->next = v`. -/
def set_next (base : Nat) (m : Nat → Nat) (p : Nat) (v : Option Nat) : Nat → Nat :=
  Function.update m (p + 16) (encode base v)

/-- The loop of `find_free_block`, from `current`, with fuel. -/
def find_free_block_loop (base : Nat) (m : Nat → Nat) (size : Nat) :
    Nat → Option Nat → Option (Option Nat)
  | _, none => some none
  | 0, some _ => none
  | fuel + 1, some current =>
    if get_is_free m current ≠ 0 ∧ get_size m current ≥ size then
      some (some current)
    else
      find_free_block_loop base m size fuel (get_next base m current)

/-- The function `split_block`; the offset of the remainder header is reduced
`% 2^64`, as the 64-bit pointer arithmetic of the machine does. -/
def split_block (base : Nat) (m : Nat → Nat) (block size : Nat) : Nat → Nat :=
  if get_size m block < (size + BLOCK_HEADER_SIZE + MIN_BLOCK_SIZE) % SIZE_MOD then
    m
  else
    let new_block := (block + BLOCK_HEADER_SIZE + size) % SIZE_MOD
    let m1 := set_size m new_block
      ((get_size m block + (SIZE_MOD - size % SIZE_MOD)
          + (SIZE_MOD - BLOCK_HEADER_SIZE)) % SIZE_MOD)
    let m2 := set_is_free m1 new_block 1
    let m3 := set_next base m2 new_block (get_next base m2 block)
    let m4 := set_size m3 block size
    set_next base m4 block (some new_block)

/-- The function `request_space`. -/
def request_space (base : Nat) (h : Heap) (size : Nat) : Option Nat × Heap :=
  let total_size := (BLOCK_HEADER_SIZE + size) % SIZE_MOD
  if (h.heap_offset + total_size) % SIZE_MOD > HEAP_SIZE then
    (none, h)
  else
    let block := h.heap_offset
    let m1 := set_size h.words block size
    let m2 := set_is_free m1 block 0
    let m3 := set_next base m2 block none
    (some block,
      { h with heap_offset := (h.heap_offset + total_size) % SIZE_MOD, words := m3 })

/-- The append loop of `my_malloc`. -/
def find_tail (base : Nat) (m : Nat → Nat) : Nat → Nat → Option Nat
  | 0, _ => none
  | fuel + 1, current =>
    match get_next base m current with
    | none => some current
    | some nxt => find_tail base m fuel nxt

/-- The function `my_malloc`. -/
def my_malloc (base fuel : Nat) (h : Heap) (size : Nat) : Option (Option Nat × Heap) :=
  if size ≤ 0 then
    some (none, h)
  else
    let h0 := { h with heap_initialized := true }
    let size := align_size size
    match h0.heap_start with
    | none =>
      match request_space base h0 size with
      | (none, h1) => some (none, h1)
      | (some block, h1) =>
        some (some (block + BLOCK_HEADER_SIZE), { h1 with heap_start := some block })
    | some start =>
      match find_free_block_loop base h0.words size fuel h0.heap_start with
      | none => none
      | some (some block) =>
        let m1 := set_is_free h0.words block 0
        let m2 := split_block base m1 block size
        some (some (block + BLOCK_HEADER_SIZE), { h0 with words := m2 })
      | some none =>
        match request_space base h0 size with
        | (none, h1) => some (none, h1)
        | (some block, h1) =>
          match find_tail base h1.words fuel start with
          | none => none
          | some current =>
            some (some (block + BLOCK_HEADER_SIZE),
              { h1 with words := set_next base h1.words current (some block) })

/-- A sequence of `my_malloc` calls. -/
def run_mallocs (base fuel : Nat) : Heap → List Nat → Option (List (Option Nat) × Heap)
  | h, [] => some ([], h)
  | h, s :: rest =>
    match my_malloc base fuel h s with
    | none => none
    | some (p, h1) =>
      match run_mallocs base fuel h1 rest with
      | none => none
      | some (ps, h2) => some (p :: ps, h2)

/-- The header offsets met by walking `next` links from `current`. -/
def block_list_loop (base : Nat) (m : Nat → Nat) : Nat → Option Nat → Option (List Nat)
  | _, none => some []
  | 0, some _ => none
  | fuel + 1, some current =>
    match block_list_loop base m fuel (get_next base m current) with
    | none => none
    | some rest => some (current :: rest)

/-- The loop of `get_total_heap_size`, from `current` with running `total`. -/
def get_total_heap_size_loop (base : Nat) (m : Nat → Nat) :
    Nat → Option Nat → Nat → Option Nat
  | _, none, total => some total
  | 0, some _, _ => none
  | fuel + 1, some current, total =>
    get_total_heap_size_loop base m fuel (get_next base m current)
      ((total + (get_size m current + BLOCK_HEADER_SIZE) % SIZE_MOD) % SIZE_MOD)

end Layout

/-! ## The pure bump allocator of the refinement claim -/

/-- State of the pure bump allocator: the blocks appended so far, as
(header offset, payload size) in list order, and the high-water mark. -/
structure BumpState where
  blocks : List (Nat × Nat)
  hwm : Nat
deriving DecidableEq, Repr

/-- The pure bump allocator: a zero request fails; otherwise the request fails
on the capacity check of `request_space`, or one non-free block of size
`align_size s` is appended at the current high-water mark and its payload is
returned. -/
def bump_malloc (st : BumpState) (s : Nat) : Option Nat × BumpState :=
  if s = 0 then (none, st)
  else
    let size := align_size s
    let total_size := (BLOCK_HEADER_SIZE + size) % SIZE_MOD
    if (st.hwm + total_size) % SIZE_MOD > HEAP_SIZE then (none, st)
    else
      (some (st.hwm + BLOCK_HEADER_SIZE),
        { blocks := st.blocks ++ [(st.hwm, size)],
          hwm := (st.hwm + total_size) % SIZE_MOD })

/-- A sequence of calls of the pure bump allocator. -/
def bump_run : BumpState → List Nat → List (Option Nat) × BumpState
  | st, [] => ([], st)
  | st, s :: rest =>
    let r := bump_malloc st s
    let rs := bump_run r.2 rest
    (r.1 :: rs.1, rs.2)

/-! ## Theorems -/

/-- A walk that stands on a block whose `next` link points at the block itself
never leaves it: `get_allocated_blocks` does not return, whatever the fuel. -/
theorem get_allocated_blocks_loop_self_link (mem : Nat → block_t) (p : Nat)
    (hp : (mem p).next = some p) (fuel count : Nat) :
    get_allocated_blocks_loop mem fuel (some p) count = none := by
  induction fuel generalizing count with
  | zero => rfl
  | succ n ih => simp only [get_allocated_blocks_loop, hp]; exact ih _

/-- A walk that stands on a block whose `next` link points at the block itself
never leaves it: `get_total_heap_size` does not return, whatever the fuel. -/
theorem get_total_heap_size_loop_self_link (mem : Nat → block_t) (p : Nat)
    (hp : (mem p).next = some p) (fuel total : Nat) :
    get_total_heap_size_loop mem fuel (some p) total = none := by
  induction fuel generalizing total with
  | zero => rfl
  | succ n ih => simp only [get_total_heap_size_loop, hp]; exact ih _

/-- A state obtained from a reachable one by a finished sequence of calls with
request sizes in the range of `size_t` is reachable. -/
theorem reachable_run_mallocs (fuel : Nat) (sizes : List Nat) :
    ∀ (h h1 : Heap) (ps : List (Option Nat)), Reachable h →
      (∀ s ∈ sizes, s < SIZE_MOD) →
      run_mallocs fuel h sizes = some (ps, h1) → Reachable h1 := by
  induction sizes with
  | nil =>
    intro h h1 ps hr _ hrun
    simp only [run_mallocs, Option.some.injEq, Prod.mk.injEq] at hrun
    exact hrun.2 ▸ hr
  | cons s rest ih =>
    intro h h1 ps hr hlt hrun
    simp only [run_mallocs] at hrun
    cases hm : my_malloc fuel h s with
    | none => simp [hm] at hrun
    | some r =>
      obtain ⟨p, h2⟩ := r
      simp only [hm] at hrun
      cases hrest : run_mallocs fuel h2 rest with
      | none => simp [hrest] at hrun
      | some r2 =>
        obtain ⟨ps2, h3⟩ := r2
        simp only [hrest, Option.some.injEq, Prod.mk.injEq] at hrun
        have hr2 : Reachable h2 :=
          Reachable.step fuel h h2 s p hr (hlt s (List.mem_cons_self _ _)) hm
        exact hrun.2 ▸ ih h2 h3 ps2 hr2 (fun t ht => hlt t (List.mem_cons_of_mem _ ht)) hrest

/-- More fuel does not change what `find_free_block` returns. -/
theorem find_free_block_loop_fuel_mono (mem : Nat → block_t) (size : Nat) :
    ∀ (n m : Nat) (current : Option Nat) (r : Option Nat), n ≤ m →
      find_free_block_loop mem size n current = some r →
      find_free_block_loop mem size m current = some r := by
  intro n
  induction n with
  | zero =>
    intro m current r _ hr
    cases current with
    | none => cases m <;> simpa [find_free_block_loop] using hr
    | some p => simp [find_free_block_loop] at hr
  | succ n ih =>
    intro m current r hnm hr
    cases current with
    | none => cases m <;> simpa [find_free_block_loop] using hr
    | some p =>
      obtain ⟨k, rfl⟩ : ∃ k, m = k + 1 := ⟨m - 1, by omega⟩
      simp only [find_free_block_loop] at hr ⊢
      split
      · rename_i hc
        rw [if_pos hc] at hr
        exact hr
      · rename_i hc
        rw [if_neg hc] at hr
        exact ih k _ r (by omega) hr

/-- More fuel does not change the tail found by the append loop. -/
theorem find_tail_fuel_mono (mem : Nat → block_t) :
    ∀ (n m current r : Nat), n ≤ m →
      find_tail mem n current = some r → find_tail mem m current = some r := by
  intro n
  induction n with
  | zero => intro m current r _ hr; simp [find_tail] at hr
  | succ n ih =>
    intro m current r hnm hr
    obtain ⟨k, rfl⟩ : ∃ k, m = k + 1 := ⟨m - 1, by omega⟩
    simp only [find_tail] at hr ⊢
    cases hnx : (mem current).next with
    | none => simpa [hnx] using hr
    | some nxt =>
      simp only [hnx] at hr ⊢
      exact ih k nxt r (by omega) hr

/-- More fuel does not change what `get_allocated_blocks` returns. -/
theorem get_allocated_blocks_loop_fuel_mono (mem : Nat → block_t) :
    ∀ (n m : Nat) (current : Option Nat) (count r : Nat), n ≤ m →
      get_allocated_blocks_loop mem n current count = some r →
      get_allocated_blocks_loop mem m current count = some r := by
  intro n
  induction n with
  | zero =>
    intro m current count r _ hr
    cases current with
    | none => cases m <;> simpa [get_allocated_blocks_loop] using hr
    | some p => simp [get_allocated_blocks_loop] at hr
  | succ n ih =>
    intro m current count r hnm hr
    cases current with
    | none => cases m <;> simpa [get_allocated_blocks_loop] using hr
    | some p =>
      obtain ⟨k, rfl⟩ : ∃ k, m = k + 1 := ⟨m - 1, by omega⟩
      simp only [get_allocated_blocks_loop] at hr ⊢
      exact ih k _ _ r (by omega) hr

/-- More fuel does not change what `get_total_heap_size` returns. -/
theorem get_total_heap_size_loop_fuel_mono (mem : Nat → block_t) :
    ∀ (n m : Nat) (current : Option Nat) (total r : Nat), n ≤ m →
      get_total_heap_size_loop mem n current total = some r →
      get_total_heap_size_loop mem m current total = some r := by
  intro n
  induction n with
  | zero =>
    intro m current total r _ hr
    cases current with
    | none => cases m <;> simpa [get_total_heap_size_loop] using hr
    | some p => simp [get_total_heap_size_loop] at hr
  | succ n ih =>
    intro m current total r hnm hr
    cases current with
    | none => cases m <;> simpa [get_total_heap_size_loop] using hr
    | some p =>
      obtain ⟨k, rfl⟩ : ∃ k, m = k + 1 := ⟨m - 1, by omega⟩
      simp only [get_total_heap_size_loop] at hr ⊢
      exact ih k _ _ r (by omega) hr

/-- More fuel does not change what `my_malloc` returns nor the state it leaves. -/
theorem my_malloc_fuel_mono (n m : Nat) (h : Heap) (s : Nat) (r : Option Nat × Heap)
    (hnm : n ≤ m) (hr : my_malloc n h s = some r) : my_malloc m h s = some r := by
  unfold my_malloc at hr ⊢
  by_cases hs : s ≤ 0
  · rw [if_pos hs] at hr ⊢; exact hr
  · rw [if_neg hs] at hr ⊢
    obtain ⟨mem, start, off, init⟩ := h
    cases start with
    | none => exact hr
    | some start =>
      simp only at hr ⊢
      cases hf : find_free_block n ⟨mem, some start, off, true⟩ (align_size s) with
      | none => simp [hf] at hr
      | some fb =>
        have hf2 : find_free_block m ⟨mem, some start, off, true⟩ (align_size s) = some fb :=
          find_free_block_loop_fuel_mono mem (align_size s) n m (some start) fb hnm hf
        rw [hf] at hr
        rw [hf2]
        cases fb with
        | some b => exact hr
        | none =>
          simp only at hr ⊢
          rcases hreq : request_space ⟨mem, some start, off, true⟩ (align_size s) with ⟨ob, h1⟩
          rw [hreq] at hr
          cases ob with
          | none => exact hr
          | some b =>
            simp only at hr ⊢
            cases ht : find_tail h1.mem n start with
            | none => simp [ht] at hr
            | some t =>
              rw [find_tail_fuel_mono h1.mem n m start t hnm ht]
              rw [ht] at hr
              exact hr

/-- More fuel does not change the outcome of a sequence of calls. -/
theorem run_mallocs_fuel_mono (n m : Nat) (hnm : n ≤ m) (sizes : List Nat) :
    ∀ (h : Heap) (r : List (Option Nat) × Heap),
      run_mallocs n h sizes = some r → run_mallocs m h sizes = some r := by
  induction sizes with
  | nil => intro h r hr; exact hr
  | cons s rest ih =>
    intro h r hr
    simp only [run_mallocs] at hr ⊢
    cases hm : my_malloc n h s with
    | none => simp [hm] at hr
    | some r1 =>
      obtain ⟨p, h1⟩ := r1
      rw [my_malloc_fuel_mono n m h s (p, h1) hnm hm]
      simp only [hm] at hr ⊢
      cases hrest : run_mallocs n h1 rest with
      | none => simp [hrest] at hr
      | some r2 =>
        rw [ih h1 r2 hrest]
        simp only [hrest] at hr
        exact hr

/-- Masking a 64-bit value with `~7` clears its three low bits. -/
theorem land_mask_eq (x : Nat) (hx : x < 2 ^ 64) : x &&& (2 ^ 64 - 8) = x / 8 * 8 := by
  apply Nat.eq_of_testBit_eq
  intro i
  have h8 : (2 : Nat) ^ 64 - 8 = 2 ^ 3 * (2 ^ 61 - 1) := by norm_num
  have hx8 : x / 8 * 8 = 2 ^ 3 * (x >>> 3) := by
    rw [Nat.shiftRight_eq_div_pow]; norm_num [Nat.mul_comm]
  rw [Nat.testBit_land, h8, hx8, Nat.testBit_mul_pow_two, Nat.testBit_mul_pow_two,
    Nat.testBit_two_pow_sub_one, Nat.testBit_shiftRight]
  by_cases h3 : 3 ≤ i
  · by_cases h64 : i < 64
    · have : i - 3 < 61 := by omega
      have e : 3 + (i - 3) = i := by omega
      simp [h3, this, e]
    · have hlt : x < 2 ^ i :=
        lt_of_lt_of_le hx (Nat.pow_le_pow_right (by norm_num) (by omega))
      have : x.testBit i = false := Nat.testBit_lt_two_pow hlt
      have e : 3 + (i - 3) = i := by omega
      simp [h3, this, e]
  · simp [h3]

/-- When `size + 7` does not wrap, `align_size` rounds up to a multiple of 8. -/
theorem align_size_eq (s : Nat) (hs : s + 7 < SIZE_MOD) :
    align_size s = (s + 7) / 8 * 8 := by
  unfold align_size
  rw [Nat.mod_eq_of_lt hs]
  exact land_mask_eq (s + 7) hs

/-- The function `request_space` returns `NULL` exactly when its capacity test,
evaluated in `size_t` arithmetic, is true. -/
theorem request_space_fails_iff (h : Heap) (size : Nat) :
    (request_space h size).1 = none ↔
      (h.heap_offset + (BLOCK_HEADER_SIZE + size) % SIZE_MOD) % SIZE_MOD > HEAP_SIZE := by
  unfold request_space
  by_cases hc : (h.heap_offset + (BLOCK_HEADER_SIZE + size) % SIZE_MOD) % SIZE_MOD > HEAP_SIZE
  · simp only [if_pos hc, true_iff]
    exact hc
  · simp only [if_neg hc, reduceCtorEq, false_iff]
    exact hc

/-- A search that stands on a non-fitting block whose `next` link points at the
block itself never leaves it: `find_free_block` does not return. -/
theorem find_free_block_loop_self_link (mem : Nat → block_t) (size p : Nat)
    (hp : (mem p).next = some p)
    (hfit : ¬ ((mem p).is_free ≠ 0 ∧ (mem p).size ≥ size)) (fuel : Nat) :
    find_free_block_loop mem size fuel (some p) = none := by
  induction fuel with
  | zero => rfl
  | succ n ih => simp only [find_free_block_loop, if_neg hfit, hp]; exact ih

/-- When the list head is a non-free block linked to itself, `my_malloc` with a
non-zero size walks the list for ever: no fuel makes it return. -/
theorem my_malloc_self_link (fuel : Nat) (h : Heap) (s p : Nat) (hs : 0 < s)
    (hstart : h.heap_start = some p) (hnext : (h.mem p).next = some p)
    (hfree : (h.mem p).is_free = 0) :
    my_malloc fuel h s = none := by
  have hs0 : ¬ s ≤ 0 := by omega
  obtain ⟨mem, start, off, init⟩ := h
  simp only at hstart hnext hfree
  subst hstart
  have hfind : find_free_block fuel ⟨mem, some p, off, true⟩ (align_size s) = none :=
    find_free_block_loop_self_link mem (align_size s) p hnext
      (fun hc => hc.1 hfree) fuel
  unfold my_malloc
  rw [if_neg hs0]
  simp only [hfind]

/-! ### Requests that cannot wrap

The allocator is correct on the packed states reached by requests for which no
`size_t` expression wraps; the failing inputs further down all use a request
outside that range. -/

/-- Committed bytes after one more block. -/
theorem committed_append (szs : List Nat) (sz : Nat) :
    committed (szs ++ [sz]) = committed szs + (sz + BLOCK_HEADER_SIZE) := by
  induction szs with
  | nil => simp [committed]
  | cons x rest ih =>
    show x + BLOCK_HEADER_SIZE + committed (rest ++ [sz]) = _
    rw [ih]
    simp only [committed]
    omega

/-- No block of a packed list is free, so `find_free_block` reaches the end of
the list and returns `NULL`, given fuel for one step per block. -/
theorem packed_find_free_block_none (mem : Nat → block_t) (size : Nat) :
    ∀ (szs : List Nat) (p : Option Nat) (a fuel : Nat),
      Packed mem p a szs → szs.length ≤ fuel →
      find_free_block_loop mem size fuel p = some none := by
  intro szs
  induction szs with
  | nil =>
    intro p a fuel hp _
    simp only [Packed] at hp
    subst hp
    cases fuel <;> rfl
  | cons sz rest ih =>
    intro p a fuel hp hfuel
    obtain ⟨h1, _, h3, h4⟩ := hp
    subst h1
    obtain ⟨k, rfl⟩ : ∃ k, fuel = k + 1 := ⟨fuel - 1, by simp at hfuel; omega⟩
    have hnot : ¬ ((mem a).is_free ≠ 0 ∧ (mem a).size ≥ size) := fun hc => hc.1 h3
    simp only [find_free_block_loop, if_neg hnot]
    exact ih _ _ k h4 (by simp at hfuel; omega)

/-- In a packed list `get_allocated_blocks` counts every block. -/
theorem packed_get_allocated_blocks (mem : Nat → block_t) :
    ∀ (szs : List Nat) (p : Option Nat) (a fuel count : Nat),
      Packed mem p a szs → szs.length ≤ fuel →
      get_allocated_blocks_loop mem fuel p count = some (count + szs.length) := by
  intro szs
  induction szs with
  | nil =>
    intro p a fuel count hp _
    simp only [Packed] at hp
    subst hp
    cases fuel <;> rfl
  | cons sz rest ih =>
    intro p a fuel count hp hfuel
    obtain ⟨h1, _, h3, h4⟩ := hp
    subst h1
    obtain ⟨k, rfl⟩ : ∃ k, fuel = k + 1 := ⟨fuel - 1, by simp at hfuel; omega⟩
    simp only [get_allocated_blocks_loop, h3, if_true]
    rw [ih _ _ k _ h4 (by simp at hfuel; omega)]
    simp only [List.length_cons]
    congr 1
    omega

/-- In a packed list `get_total_heap_size` adds up the committed bytes, in
`size_t` arithmetic. -/
theorem packed_get_total_heap_size (mem : Nat → block_t) :
    ∀ (szs : List Nat) (p : Option Nat) (a fuel total : Nat),
      Packed mem p a szs → szs.length ≤ fuel → total < SIZE_MOD →
      get_total_heap_size_loop mem fuel p total
        = some ((total + committed szs) % SIZE_MOD) := by
  intro szs
  induction szs with
  | nil =>
    intro p a fuel total hp _ htot
    simp only [Packed] at hp
    subst hp
    have : get_total_heap_size_loop mem fuel none total = some total := by
      cases fuel <;> rfl
    rw [this]
    simp only [committed, Nat.add_zero, Nat.mod_eq_of_lt htot]
  | cons sz rest ih =>
    intro p a fuel total hp hfuel _
    obtain ⟨h1, h2, _, h4⟩ := hp
    subst h1
    obtain ⟨k, rfl⟩ : ∃ k, fuel = k + 1 := ⟨fuel - 1, by simp at hfuel; omega⟩
    simp only [get_total_heap_size_loop]
    rw [ih _ _ k _ h4 (by simp at hfuel; omega)
      (Nat.mod_lt _ (by unfold SIZE_MOD; norm_num)), h2]
    simp only [committed]
    congr 1
    rw [Nat.add_mod_mod, Nat.mod_add_mod]
    congr 1
    omega

/-- Appending to a packed list: once a fresh non-free block of size `new` is
written right behind the last block, the append loop of `my_malloc` finds the
last block and linking it to the new one gives the packed list extended by
`new`. -/
theorem packed_append (mem mem1 : Nat → block_t) (new : Nat) :
    ∀ (rest : List Nat) (sz a fuel : Nat),
      Packed mem (some a) a (sz :: rest) →
      (∀ x, x < a + committed (sz :: rest) → mem1 x = mem x) →
      mem1 (a + committed (sz :: rest)) = { size := new, is_free := 0, next := none } →
      rest.length < fuel →
      ∃ t, find_tail mem1 fuel a = some t ∧ a ≤ t ∧ t < a + committed (sz :: rest) ∧
        Packed (set_next mem1 t (some (a + committed (sz :: rest)))) (some a) a
          (sz :: rest ++ [new]) := by
  intro rest
  induction rest with
  | nil =>
    intro sz a fuel hp hagree hnew hfuel
    obtain ⟨_, h2, h3, h4⟩ := hp
    simp only [Packed] at h4
    have he : a + committed [sz] = a + BLOCK_HEADER_SIZE + sz := by
      simp only [committed]; omega
    rw [he] at hagree hnew ⊢
    have ha : mem1 a = mem a := hagree a (by simp only [BLOCK_HEADER_SIZE]; omega)
    obtain ⟨k, rfl⟩ : ∃ k, fuel = k + 1 := ⟨fuel - 1, by omega⟩
    refine ⟨a, ?_, Nat.le_refl a, by simp only [BLOCK_HEADER_SIZE]; omega, ?_⟩
    · simp only [find_tail, ha, h4]
    · have hne : a + BLOCK_HEADER_SIZE + sz ≠ a := by simp only [BLOCK_HEADER_SIZE]; omega
      refine ⟨rfl, ?_, ?_, ?_⟩
      · simp only [set_next, Function.update_same, ha, h2]
      · simp only [set_next, Function.update_same, ha, h3]
      · simp only [set_next, Function.update_same, List.nil_append]
        refine ⟨rfl, ?_, ?_, ?_⟩
        · rw [Function.update_noteq hne, hnew]
        · rw [Function.update_noteq hne, hnew]
        · rw [Function.update_noteq hne, hnew]
          rfl
  | cons sz2 rest2 ih =>
    intro sz a fuel hp hagree hnew hfuel
    obtain ⟨_, h2, h3, h4⟩ := hp
    have hnext : (mem a).next = some (a + BLOCK_HEADER_SIZE + sz) := h4.1
    rw [hnext] at h4
    have he : a + committed (sz :: sz2 :: rest2)
        = (a + BLOCK_HEADER_SIZE + sz) + committed (sz2 :: rest2) := by
      simp only [committed]; omega
    rw [he] at hagree hnew ⊢
    obtain ⟨k, rfl⟩ : ∃ k, fuel = k + 1 := ⟨fuel - 1, by omega⟩
    obtain ⟨t, ht1, ht2, ht3, ht4⟩ :=
      ih sz2 (a + BLOCK_HEADER_SIZE + sz) k h4 hagree hnew
        (by simp only [List.length_cons] at hfuel; omega)
    have ha : mem1 a = mem a :=
      hagree a (by simp only [committed, BLOCK_HEADER_SIZE]; omega)
    have hta : t ≠ a := by simp only [BLOCK_HEADER_SIZE] at ht2; omega
    refine ⟨t, ?_, by omega, ht3, ?_⟩
    · simp only [find_tail, ha, hnext]
      exact ht1
    · have hat : set_next mem1 t
          (some (a + BLOCK_HEADER_SIZE + sz + committed (sz2 :: rest2))) a = mem a := by
        simp only [set_next]
        rw [Function.update_noteq (Ne.symm hta), ha]
      refine ⟨rfl, by rw [hat]; exact h2, by rw [hat]; exact h3, ?_⟩
      rw [hat, hnext]
      exact ht4

/-- The three assignments of `request_space` leave at `block` the header
`{size, 0, NULL}`. -/
theorem header_written (mem : Nat → block_t) (block size : Nat) :
    set_next (set_is_free (set_size mem block size) block 0) block none block
      = { size := size, is_free := 0, next := none } := by
  simp only [set_next, set_is_free, set_size, Function.update_same]

/-- The three assignments of `request_space` change no other header. -/
theorem header_written_other (mem : Nat → block_t) (block size x : Nat) (hx : x ≠ block) :
    set_next (set_is_free (set_size mem block size) block 0) block none x = mem x := by
  simp only [set_next, set_is_free, set_size]
  rw [Function.update_noteq hx, Function.update_noteq hx, Function.update_noteq hx]

/-- Without wrap-around the rounded size is at least the request and less than
eight above it. -/
theorem round_up_bounds (s : Nat) : s ≤ (s + 7) / 8 * 8 ∧ (s + 7) / 8 * 8 < s + 8 ∧
    (s + 7) / 8 * 8 % 8 = 0 := by
  omega

/-- In a packed state a request that does not wrap and does not fit in the
arena makes `my_malloc` return `NULL` and leaves the block list and
`heap_offset` as they were. -/
theorem packed_heap_my_malloc_full (fuel : Nat) (h : Heap) (szs : List Nat) (s : Nat)
    (hinv : PackedHeap h szs) (hw : no_wrap s) (hs : 0 < s) (hfuel : szs.length ≤ fuel)
    (hfull : h.heap_offset + BLOCK_HEADER_SIZE + (s + 7) / 8 * 8 > HEAP_SIZE) :
    my_malloc fuel h s = some (none, { h with heap_initialized := true }) := by
  obtain ⟨hpk, hoff, hcap, _⟩ := hinv
  have hs0 : ¬ s ≤ 0 := by omega
  have hb := round_up_bounds s
  unfold no_wrap SIZE_MOD at hw
  have hal : align_size s = (s + 7) / 8 * 8 := align_size_eq s (by unfold SIZE_MOD; omega)
  obtain ⟨mem, start, off, init⟩ := h
  simp only at hpk hoff hcap hfull
  have hcond : (off + (BLOCK_HEADER_SIZE + align_size s) % SIZE_MOD) % SIZE_MOD > HEAP_SIZE := by
    rw [hal]
    unfold SIZE_MOD BLOCK_HEADER_SIZE HEAP_SIZE at *
    omega
  have hreq : ∀ st, request_space ⟨mem, st, off, true⟩ (align_size s)
      = (none, ⟨mem, st, off, true⟩) := by
    intro st
    unfold request_space
    exact if_pos hcond
  unfold my_malloc
  rw [if_neg hs0]
  cases start with
  | none => simp only [hreq]
  | some start =>
    have hf : find_free_block fuel ⟨mem, some start, off, true⟩ (align_size s) = some none :=
      packed_find_free_block_none mem (align_size s) szs (some start) 0 fuel hpk hfuel
    simp only [hf, hreq]

/-- In a packed state a request that does not wrap and fits in the arena makes
`my_malloc` return the payload of a new block placed at `heap_offset`, and the
state stays packed with the rounded size appended. -/
theorem packed_heap_my_malloc_fits (fuel : Nat) (h : Heap) (szs : List Nat) (s : Nat)
    (hinv : PackedHeap h szs) (hw : no_wrap s) (hs : 0 < s) (hfuel : szs.length ≤ fuel)
    (hfits : h.heap_offset + BLOCK_HEADER_SIZE + (s + 7) / 8 * 8 ≤ HEAP_SIZE) :
    ∃ h1, my_malloc fuel h s = some (some (h.heap_offset + BLOCK_HEADER_SIZE), h1) ∧
      PackedHeap h1 (szs ++ [(s + 7) / 8 * 8]) ∧
      h1.heap_offset = h.heap_offset + BLOCK_HEADER_SIZE + (s + 7) / 8 * 8 := by
  obtain ⟨hpk, hoff, hcap, hal8⟩ := hinv
  have hs0 : ¬ s ≤ 0 := by omega
  have hb := round_up_bounds s
  unfold no_wrap SIZE_MOD at hw
  have hal : align_size s = (s + 7) / 8 * 8 := align_size_eq s (by unfold SIZE_MOD; omega)
  obtain ⟨mem, start, off, init⟩ := h
  simp only at hpk hoff hcap hfits ⊢
  have hsum : (off + (BLOCK_HEADER_SIZE + align_size s) % SIZE_MOD) % SIZE_MOD
      = off + BLOCK_HEADER_SIZE + (s + 7) / 8 * 8 := by
    rw [hal]
    unfold SIZE_MOD BLOCK_HEADER_SIZE HEAP_SIZE at *
    omega
  have hcond : ¬ (off + (BLOCK_HEADER_SIZE + align_size s) % SIZE_MOD) % SIZE_MOD > HEAP_SIZE := by
    rw [hsum]; omega
  have hreq : ∀ st, request_space ⟨mem, st, off, true⟩ (align_size s)
      = (some off, ⟨set_next (set_is_free (set_size mem off (align_size s)) off 0) off none,
          st, off + BLOCK_HEADER_SIZE + (s + 7) / 8 * 8, true⟩) := by
    intro st
    unfold request_space
    rw [if_neg hcond]
    simp only [hsum]
  have hall : ∀ sz ∈ szs ++ [(s + 7) / 8 * 8], sz % 8 = 0 := by
    intro sz hsz
    rcases List.mem_append.1 hsz with h1 | h1
    · exact hal8 sz h1
    · simp only [List.mem_singleton] at h1
      rw [h1]; exact hb.2.2
  have hcm : off + BLOCK_HEADER_SIZE + (s + 7) / 8 * 8
      = committed (szs ++ [(s + 7) / 8 * 8]) := by
    rw [committed_append, ← hoff]; omega
  unfold my_malloc
  rw [if_neg hs0]
  cases szs with
  | nil =>
    simp only [Packed] at hpk
    subst hpk
    simp only [committed] at hoff
    subst hoff
    refine ⟨⟨set_next (set_is_free (set_size mem 0 (align_size s)) 0 0) 0 none, some 0,
      0 + BLOCK_HEADER_SIZE + (s + 7) / 8 * 8, true⟩, by simp only [hreq],
      ⟨?_, hcm, hfits, hall⟩, rfl⟩
    simp only [List.nil_append]
    refine ⟨rfl, ?_, ?_, ?_⟩
    · rw [header_written, hal]
    · rw [header_written]
    · rw [header_written]; rfl
  | cons sz rest =>
    have hstart : start = some 0 := hpk.1
    subst hstart
    have hf : find_free_block fuel ⟨mem, some 0, off, true⟩ (align_size s) = some none :=
      packed_find_free_block_none mem (align_size s) (sz :: rest) (some 0) 0 fuel hpk hfuel
    have hoff0 : off = 0 + committed (sz :: rest) := by omega
    obtain ⟨t, ht1, _, _, ht4⟩ :=
      packed_append mem
        (set_next (set_is_free (set_size mem off (align_size s)) off 0) off none)
        ((s + 7) / 8 * 8) rest sz 0 fuel hpk
        (by
          intro x hx
          exact header_written_other mem off _ x (by omega))
        (by rw [← hoff0, header_written, hal])
        (by simp only [List.length_cons] at hfuel; omega)
    rw [← hoff0] at ht4
    exact ⟨⟨set_next (set_next (set_is_free (set_size mem off (align_size s)) off 0) off none)
        t (some off), some 0, off + BLOCK_HEADER_SIZE + (s + 7) / 8 * 8, true⟩,
      by simp only [hf, hreq, ht1], ⟨ht4, hcm, hfits, hall⟩, rfl⟩

/-- The empty arena is packed, with no block. -/
theorem packed_heap_empty : PackedHeap empty_heap [] :=
  ⟨rfl, rfl, Nat.zero_le _, fun _ h => absurd h (List.not_mem_nil _)⟩

/-- A sequence of requests that cannot wrap, issued in a packed state with fuel
for the final list length, runs to completion; the state stays packed, the
blocks committed are those of the bump discipline `committed_sizes`, and the
calls that return a pointer are exactly the ones that commit a block. -/
theorem packed_heap_run_mallocs (sizes : List Nat) :
    ∀ (fuel : Nat) (h : Heap) (szs : List Nat), PackedHeap h szs →
      (∀ s ∈ sizes, no_wrap s) → szs.length + sizes.length ≤ fuel →
      ∃ ps h1, run_mallocs fuel h sizes = some (ps, h1) ∧
        PackedHeap h1 (szs ++ committed_sizes h.heap_offset sizes) ∧
        successes ps = (committed_sizes h.heap_offset sizes).length := by
  induction sizes with
  | nil =>
    intro fuel h szs hinv _ _
    exact ⟨[], h, rfl, by simpa [committed_sizes] using hinv, rfl⟩
  | cons s rest ih =>
    intro fuel h szs hinv hw hfuel
    have hw1 : no_wrap s := hw s (List.mem_cons_self _ _)
    have hw2 : ∀ t ∈ rest, no_wrap t := fun t ht => hw t (List.mem_cons_of_mem _ ht)
    simp only [List.length_cons] at hfuel
    by_cases hs : s = 0
    · subst hs
      have hm : my_malloc fuel h 0 = some (none, h) := by simp [my_malloc]
      obtain ⟨ps, h1, hrun, hpk, hcount⟩ := ih fuel h szs hinv hw2 (by omega)
      refine ⟨none :: ps, h1, ?_, ?_, ?_⟩
      · simp only [run_mallocs, hm, hrun]
      · simpa [committed_sizes] using hpk
      · simpa [committed_sizes, successes] using hcount
    · by_cases hfull : h.heap_offset + BLOCK_HEADER_SIZE + (s + 7) / 8 * 8 > HEAP_SIZE
      · have hm := packed_heap_my_malloc_full fuel h szs s hinv hw1 (by omega) (by omega) hfull
        have hinv1 : PackedHeap { h with heap_initialized := true } szs := hinv
        obtain ⟨ps, h1, hrun, hpk, hcount⟩ := ih fuel _ szs hinv1 hw2 (by omega)
        refine ⟨none :: ps, h1, ?_, ?_, ?_⟩
        · simp only [run_mallocs, hm, hrun]
        · simpa [committed_sizes, hs, hfull] using hpk
        · simpa [committed_sizes, hs, hfull, successes] using hcount
      · obtain ⟨h1, hm, hinv1, hoff1⟩ :=
          packed_heap_my_malloc_fits fuel h szs s hinv hw1 (by omega) (by omega) (by omega)
        obtain ⟨ps, h2, hrun, hpk, hcount⟩ :=
          ih fuel h1 (szs ++ [(s + 7) / 8 * 8]) hinv1 hw2
            (by simp only [List.length_append, List.length_singleton]; omega)
        refine ⟨some (h.heap_offset + BLOCK_HEADER_SIZE) :: ps, h2, ?_, ?_, ?_⟩
        · simp only [run_mallocs, hm, hrun]
        · rw [hoff1] at hpk
          simpa [committed_sizes, hs, hfull] using hpk
        · rw [hoff1] at hcount
          simpa [committed_sizes, hs, hfull, successes] using hcount

/-- The block list of a packed list is the list of its back-to-back offsets. -/
theorem packed_block_list (mem : Nat → block_t) :
    ∀ (szs : List Nat) (p : Option Nat) (a fuel : Nat),
      Packed mem p a szs → szs.length ≤ fuel →
      block_list_loop mem fuel p = some (packed_offsets a szs) := by
  intro szs
  induction szs with
  | nil =>
    intro p a fuel hp _
    simp only [Packed] at hp
    subst hp
    cases fuel <;> rfl
  | cons sz rest ih =>
    intro p a fuel hp hfuel
    obtain ⟨h1, _, _, h4⟩ := hp
    subst h1
    obtain ⟨k, rfl⟩ : ∃ k, fuel = k + 1 := ⟨fuel - 1, by simp at hfuel; omega⟩
    simp only [block_list_loop, packed_offsets]
    rw [ih _ _ k h4 (by simp at hfuel; omega)]

/-- Every offset of a back-to-back layout is at or after its start. -/
theorem packed_offsets_ge : ∀ (szs : List Nat) (a q : Nat),
    q ∈ packed_offsets a szs → a ≤ q := by
  intro szs
  induction szs with
  | nil => intro a q hq; simp [packed_offsets] at hq
  | cons sz rest ih =>
    intro a q hq
    simp only [packed_offsets, List.mem_cons] at hq
    rcases hq with rfl | hq
    · exact Nat.le_refl _
    · have := ih _ _ hq
      omega

/-- In a packed list every block's payload ends at or before the header of
every later block: payloads are pairwise disjoint and meet no other header. -/
theorem packed_separated (mem : Nat → block_t) :
    ∀ (szs : List Nat) (p : Option Nat) (a : Nat), Packed mem p a szs →
      (packed_offsets a szs).Pairwise (fun x y => payload_end mem x ≤ y) := by
  intro szs
  induction szs with
  | nil => intro p a _; exact List.Pairwise.nil
  | cons sz rest ih =>
    intro p a hp
    obtain ⟨_, h2, _, h4⟩ := hp
    simp only [packed_offsets]
    refine List.Pairwise.cons ?_ (ih _ _ h4)
    intro q hq
    have := packed_offsets_ge rest _ q hq
    simp only [payload_end, h2]
    exact this

/-- The bump discipline commits at most one block per request. -/
theorem committed_sizes_length_le : ∀ (sizes : List Nat) (used : Nat),
    (committed_sizes used sizes).length ≤ sizes.length := by
  intro sizes
  induction sizes with
  | nil => intro used; simp [committed_sizes]
  | cons s rest ih =>
    intro used
    simp only [committed_sizes]
    split
    · have := ih used
      simp only [List.length_cons]
      omega
    · have := ih (used + BLOCK_HEADER_SIZE + (s + 7) / 8 * 8)
      simp only [List.length_cons]
      omega

/-- Bounded requests, whole run: from the empty arena, any sequence of requests
none of which can wrap runs to completion (fuel for one step per call is
enough) and afterwards `get_allocated_blocks` is the number of calls that
returned a pointer, `get_total_heap_size` is `heap_offset`, which is within the
arena, and the blocks of the list are pairwise separated. -/
theorem no_wrap_run_correct (sizes : List Nat) (fuel : Nat)
    (hw : ∀ s ∈ sizes, no_wrap s) (hfuel : sizes.length ≤ fuel) :
    ∃ ps h offs, run_mallocs fuel empty_heap sizes = some (ps, h) ∧
      get_allocated_blocks fuel h = some (successes ps) ∧
      get_total_heap_size fuel h = some h.heap_offset ∧
      h.heap_offset ≤ HEAP_SIZE ∧
      block_list fuel h = some offs ∧
      offs.Pairwise (fun x y => payload_end h.mem x ≤ y) := by
  obtain ⟨ps, h, hrun, hpk, hcount⟩ :=
    packed_heap_run_mallocs sizes fuel empty_heap [] packed_heap_empty hw
      (by simpa using hfuel)
  have h0 : empty_heap.heap_offset = 0 := rfl
  rw [h0] at hpk hcount
  simp only [List.nil_append] at hpk
  obtain ⟨hlist, hoff, hcap, _⟩ := hpk
  have hlen : (committed_sizes 0 sizes).length ≤ fuel :=
    Nat.le_trans (committed_sizes_length_le sizes 0) hfuel
  refine ⟨ps, h, packed_offsets 0 (committed_sizes 0 sizes), hrun, ?_, ?_, hcap, ?_, ?_⟩
  · unfold get_allocated_blocks
    rw [packed_get_allocated_blocks h.mem _ _ 0 fuel 0 hlist hlen, hcount, Nat.zero_add]
  · unfold get_total_heap_size
    rw [packed_get_total_heap_size h.mem _ _ 0 fuel 0 hlist hlen
      (by unfold SIZE_MOD; norm_num), Nat.zero_add, ← hoff]
    congr 1
    apply Nat.mod_eq_of_lt
    unfold HEAP_SIZE at hcap
    unfold SIZE_MOD
    omega
  · exact packed_block_list h.mem _ _ 0 fuel hlist hlen
  · exact packed_separated h.mem _ _ 0 hlist

/-! ### Lists of disjoint blocks -/

/-- A finished walk of the list is a chain. -/
theorem chain_of_block_list (mem : Nat → block_t) :
    ∀ (l : List Nat) (fuel : Nat) (start : Option Nat),
      block_list_loop mem fuel start = some l → Chain mem start l := by
  intro l
  induction l with
  | nil =>
    intro fuel start hl
    cases start with
    | none => rfl
    | some p =>
      cases fuel with
      | zero => simp [block_list_loop] at hl
      | succ n =>
        simp only [block_list_loop] at hl
        cases hrec : block_list_loop mem n (mem p).next with
        | none => simp [hrec] at hl
        | some r => simp [hrec] at hl
  | cons q rest ih =>
    intro fuel start hl
    cases start with
    | none => cases fuel <;> simp [block_list_loop] at hl
    | some p =>
      cases fuel with
      | zero => simp [block_list_loop] at hl
      | succ n =>
        simp only [block_list_loop] at hl
        cases hrec : block_list_loop mem n (mem p).next with
        | none => simp [hrec] at hl
        | some r =>
          simp only [hrec, Option.some.injEq, List.cons.injEq] at hl
          obtain ⟨hpq, hr⟩ := hl
          subst hpq; subst hr
          exact ⟨rfl, ih n _ hrec⟩

/-- A chain is what the walk of the list finds, given fuel for each block. -/
theorem block_list_of_chain (mem : Nat → block_t) :
    ∀ (l : List Nat) (fuel : Nat) (start : Option Nat),
      Chain mem start l → l.length ≤ fuel → block_list_loop mem fuel start = some l := by
  intro l
  induction l with
  | nil =>
    intro fuel start hc _
    simp only [Chain] at hc
    subst hc
    cases fuel <;> rfl
  | cons q rest ih =>
    intro fuel start hc hfuel
    obtain ⟨h1, h2⟩ := hc
    subst h1
    obtain ⟨k, rfl⟩ : ∃ k, fuel = k + 1 := ⟨fuel - 1, by simp at hfuel; omega⟩
    simp only [block_list_loop]
    rw [ih k _ h2 (by simp at hfuel; omega)]

/-- A finished walk used at least one unit of fuel per block. -/
theorem chain_length_le (mem : Nat → block_t) :
    ∀ (l : List Nat) (fuel : Nat) (start : Option Nat),
      block_list_loop mem fuel start = some l → l.length ≤ fuel := by
  intro l
  induction l with
  | nil => intro fuel _ _; exact Nat.zero_le _
  | cons q rest ih =>
    intro fuel start hl
    cases start with
    | none => cases fuel <;> simp [block_list_loop] at hl
    | some p =>
      cases fuel with
      | zero => simp [block_list_loop] at hl
      | succ n =>
        simp only [block_list_loop] at hl
        cases hrec : block_list_loop mem n (mem p).next with
        | none => simp [hrec] at hl
        | some r =>
          simp only [hrec, Option.some.injEq, List.cons.injEq] at hl
          obtain ⟨_, hr⟩ := hl
          subst hr
          have := ih n _ hrec
          simp only [List.length_cons]
          omega

/-- A chain only depends on the `next` links of its own blocks. -/
theorem chain_congr (mem mem1 : Nat → block_t) :
    ∀ (l : List Nat) (start : Option Nat),
      (∀ q ∈ l, (mem1 q).next = (mem q).next) → Chain mem start l → Chain mem1 start l := by
  intro l
  induction l with
  | nil => intro start _ hc; exact hc
  | cons q rest ih =>
    intro start hag hc
    obtain ⟨h1, h2⟩ := hc
    refine ⟨h1, ?_⟩
    rw [hag q (List.mem_cons_self _ _)]
    exact ih _ (fun x hx => hag x (List.mem_cons_of_mem _ hx)) h2

/-- On a `NULL`-terminated list the `find_free_block` loop returns the first
block that passes its test. -/
theorem find_free_block_loop_eq_find (mem : Nat → block_t) (size : Nat) :
    ∀ (l : List Nat) (fuel : Nat) (start : Option Nat),
      Chain mem start l → l.length ≤ fuel →
      find_free_block_loop mem size fuel start
        = some (l.find? (fun p => decide (fits mem size p))) := by
  intro l
  induction l with
  | nil =>
    intro fuel start hc _
    simp only [Chain] at hc
    subst hc
    cases fuel <;> rfl
  | cons q rest ih =>
    intro fuel start hc hfuel
    obtain ⟨h1, h2⟩ := hc
    subst h1
    obtain ⟨k, rfl⟩ : ∃ k, fuel = k + 1 := ⟨fuel - 1, by simp at hfuel; omega⟩
    simp only [find_free_block_loop]
    by_cases hf : fits mem size q
    · have hf2 : (mem q).is_free ≠ 0 ∧ (mem q).size ≥ size := hf
      rw [if_pos hf2, List.find?_cons_of_pos _ (by simpa using hf)]
    · have hf2 : ¬ ((mem q).is_free ≠ 0 ∧ (mem q).size ≥ size) := hf
      rw [if_neg hf2, List.find?_cons_of_neg _ (by simpa using hf)]
      exact ih k _ h2 (by simp at hfuel; omega)

/-- When the slack test of `split_block` fails the arena is left as it is. -/
theorem split_block_whole (mem : Nat → block_t) (b r : Nat)
    (hlt : (mem b).size < (r + BLOCK_HEADER_SIZE + MIN_BLOCK_SIZE) % SIZE_MOD) :
    split_block mem b r = mem := by
  unfold split_block
  rw [if_pos hlt]

/-- When the slack test of `split_block` passes and the address of the remainder
does not wrap: the claimed block gets size `r` and is linked to a new free block written right behind its `r` payload bytes,
which inherits the old `next` link; no other header changes. -/
theorem split_block_splits (mem : Nat → block_t) (b r : Nat)
    (hge : ¬ (mem b).size < (r + BLOCK_HEADER_SIZE + MIN_BLOCK_SIZE) % SIZE_MOD)
    (hnw : b + BLOCK_HEADER_SIZE + r < SIZE_MOD) :
    split_block mem b r b
        = { size := r, is_free := (mem b).is_free,
            next := some (b + BLOCK_HEADER_SIZE + r) } ∧
      split_block mem b r (b + BLOCK_HEADER_SIZE + r)
        = { size := ((mem b).size + (SIZE_MOD - r % SIZE_MOD)
              + (SIZE_MOD - BLOCK_HEADER_SIZE)) % SIZE_MOD,
            is_free := 1, next := (mem b).next } ∧
      ∀ q, q ≠ b → q ≠ b + BLOCK_HEADER_SIZE + r → split_block mem b r q = mem q := by
  have hne : b ≠ b + BLOCK_HEADER_SIZE + r := by unfold BLOCK_HEADER_SIZE; omega
  unfold split_block
  rw [if_neg hge, Nat.mod_eq_of_lt hnw]
  refine ⟨?_, ?_, ?_⟩
  · simp only [set_next, set_size, set_is_free, Function.update_same,
      Function.update_noteq hne]
  · simp only [set_next, set_size, set_is_free, Function.update_same,
      Function.update_noteq hne, Function.update_noteq (Ne.symm hne)]
  · intro q hq1 hq2
    simp only [set_next, set_size, set_is_free, Function.update_noteq hq1,
      Function.update_noteq hq2]

/-- The same chain with a new block spliced in right behind `b`. -/
theorem chain_splice (mem mem1 : Nat → block_t) (b new : Nat) (l2 : List Nat) :
    ∀ (l1 : List Nat) (start : Option Nat),
      Chain mem start (l1 ++ b :: l2) →
      (∀ q ∈ l1 ++ l2, q ≠ b ∧ q ≠ new) →
      (∀ q, q ≠ b → q ≠ new → mem1 q = mem q) →
      (mem1 b).next = some new → (mem1 new).next = (mem b).next →
      Chain mem1 start (l1 ++ b :: new :: l2) := by
  intro l1
  induction l1 with
  | nil =>
    intro start hc hne hag hb hnew
    obtain ⟨h1, h2⟩ := hc
    refine ⟨h1, ?_⟩
    rw [hb]
    refine ⟨rfl, ?_⟩
    rw [hnew]
    apply chain_congr mem mem1 l2 _ _ h2
    intro q hq
    have := hne q (by simpa using hq)
    rw [hag q this.1 this.2]
  | cons q rest ih =>
    intro start hc hne hag hb hnew
    obtain ⟨h1, h2⟩ := hc
    refine ⟨h1, ?_⟩
    have hq := hne q (by simp)
    rw [hag q hq.1 hq.2]
    exact ih _ h2 (fun x hx => hne x (by
      simp only [List.cons_append, List.mem_cons]
      exact Or.inr hx)) hag hb hnew

/-- The total of two lists put together. -/
theorem total_of_append (mem : Nat → block_t) (l1 l2 : List Nat) :
    total_of mem (l1 ++ l2) = total_of mem l1 + total_of mem l2 := by
  induction l1 with
  | nil => simp [total_of]
  | cons q rest ih =>
    show (mem q).size + BLOCK_HEADER_SIZE + total_of mem (rest ++ l2) = _
    rw [ih]
    simp only [total_of]
    omega

/-- The total only depends on the sizes of the blocks of the list. -/
theorem total_of_congr (mem mem1 : Nat → block_t) (l : List Nat)
    (hag : ∀ q ∈ l, (mem1 q).size = (mem q).size) :
    total_of mem1 l = total_of mem l := by
  induction l with
  | nil => rfl
  | cons q rest ih =>
    simp only [total_of]
    rw [hag q (List.mem_cons_self _ _), ih (fun x hx => hag x (List.mem_cons_of_mem _ hx))]

/-- On a `NULL`-terminated list `get_total_heap_size` adds up
`size + BLOCK_HEADER_SIZE` over the blocks, in `size_t` arithmetic. -/
theorem chain_get_total_heap_size (mem : Nat → block_t) :
    ∀ (l : List Nat) (start : Option Nat) (fuel total : Nat),
      Chain mem start l → l.length ≤ fuel → total < SIZE_MOD →
      get_total_heap_size_loop mem fuel start total
        = some ((total + total_of mem l) % SIZE_MOD) := by
  intro l
  induction l with
  | nil =>
    intro start fuel total hc _ htot
    simp only [Chain] at hc
    subst hc
    have : get_total_heap_size_loop mem fuel none total = some total := by
      cases fuel <;> rfl
    rw [this]
    simp only [total_of, Nat.add_zero, Nat.mod_eq_of_lt htot]
  | cons q rest ih =>
    intro start fuel total hc hfuel _
    obtain ⟨h1, h2⟩ := hc
    subst h1
    obtain ⟨k, rfl⟩ : ∃ k, fuel = k + 1 := ⟨fuel - 1, by simp at hfuel; omega⟩
    simp only [get_total_heap_size_loop]
    rw [ih _ k _ h2 (by simp at hfuel; omega)
      (Nat.mod_lt _ (by unfold SIZE_MOD; norm_num))]
    simp only [total_of]
    congr 1
    rw [Nat.add_mod_mod, Nat.mod_add_mod]
    congr 1
    omega

/-- In a pairwise disjoint list every other block is disjoint from `b`. -/
theorem disjoint_of_pairwise (mem : Nat → block_t) (l1 l2 : List Nat) (b : Nat)
    (hp : (l1 ++ b :: l2).Pairwise (disjoint_blocks mem)) :
    ∀ q ∈ l1 ++ l2, disjoint_blocks mem b q := by
  rw [List.pairwise_append, List.pairwise_cons] at hp
  obtain ⟨_, ⟨h2, _⟩, h3⟩ := hp
  intro q hq
  rcases List.mem_append.1 hq with h | h
  · have := h3 q h b (List.mem_cons_self _ _)
    unfold disjoint_blocks at this ⊢
    omega
  · exact h2 q h

/-- Writing a free flag changes no size. -/
theorem set_is_free_size (mem : Nat → block_t) (b : Nat) (v : Int) (q : Nat) :
    (set_is_free mem b v q).size = (mem q).size := by
  unfold set_is_free
  by_cases hq : q = b
  · subst hq; simp only [Function.update_same]
  · rw [Function.update_noteq hq]

/-- Writing a free flag changes no link. -/
theorem set_is_free_next (mem : Nat → block_t) (b : Nat) (v : Int) (q : Nat) :
    (set_is_free mem b v q).next = (mem q).next := by
  unfold set_is_free
  by_cases hq : q = b
  · subst hq; simp only [Function.update_same]
  · rw [Function.update_noteq hq]

/-- The header at `b` after `b->is_free = v`. -/
theorem set_is_free_same (mem : Nat → block_t) (b : Nat) (v : Int) :
    set_is_free mem b v b = { size := (mem b).size, is_free := v, next := (mem b).next } := by
  unfold set_is_free
  simp only [Function.update_same]

/-- Writing the free flag of `b` leaves every other header alone. -/
theorem set_is_free_other (mem : Nat → block_t) (b : Nat) (v : Int) (q : Nat) (hq : q ≠ b) :
    set_is_free mem b v q = mem q := by
  unfold set_is_free
  rw [Function.update_noteq hq]

/-- Splitting a block of a `NULL`-terminated list of pairwise disjoint blocks
whose sizes stay below `2^64 - 56` and whose payload ends below address offset
`2^64`: either the arena is unchanged, or the block
shrinks to `r`, a free block holding the rest is spliced in right behind it, and
the sum of `size + BLOCK_HEADER_SIZE` over the list is what it was. -/
theorem split_block_in_list (mem : Nat → block_t) (start : Option Nat)
    (l1 l2 : List Nat) (b r : Nat)
    (hc : Chain mem start (l1 ++ b :: l2))
    (hp : (l1 ++ b :: l2).Pairwise (disjoint_blocks mem))
    (hsz : (mem b).size + BLOCK_HEADER_SIZE + MIN_BLOCK_SIZE < SIZE_MOD)
    (hin : payload_end mem b < SIZE_MOD)
    (hr : r ≤ (mem b).size) :
    ((mem b).size < r + BLOCK_HEADER_SIZE + MIN_BLOCK_SIZE → split_block mem b r = mem) ∧
    ((mem b).size ≥ r + BLOCK_HEADER_SIZE + MIN_BLOCK_SIZE →
      split_block mem b r b
        = { size := r, is_free := (mem b).is_free,
            next := some (b + BLOCK_HEADER_SIZE + r) } ∧
      split_block mem b r (b + BLOCK_HEADER_SIZE + r)
        = { size := (mem b).size - r - BLOCK_HEADER_SIZE, is_free := 1,
            next := (mem b).next } ∧
      (∀ q, q ≠ b → q ≠ b + BLOCK_HEADER_SIZE + r → split_block mem b r q = mem q) ∧
      (∀ q ∈ l1 ++ l2, q ≠ b ∧ q ≠ b + BLOCK_HEADER_SIZE + r) ∧
      Chain (split_block mem b r) start (l1 ++ b :: (b + BLOCK_HEADER_SIZE + r) :: l2) ∧
      total_of (split_block mem b r) (l1 ++ b :: (b + BLOCK_HEADER_SIZE + r) :: l2)
        = total_of mem (l1 ++ b :: l2)) := by
  have hmod : (r + BLOCK_HEADER_SIZE + MIN_BLOCK_SIZE) % SIZE_MOD
      = r + BLOCK_HEADER_SIZE + MIN_BLOCK_SIZE := Nat.mod_eq_of_lt (by omega)
  constructor
  · intro hlt
    exact split_block_whole mem b r (by rw [hmod]; exact hlt)
  · intro hge
    obtain ⟨s1, s2, s3⟩ := split_block_splits mem b r (by rw [hmod]; omega)
      (by unfold payload_end at hin; omega)
    have hns : ((mem b).size + (SIZE_MOD - r % SIZE_MOD) + (SIZE_MOD - BLOCK_HEADER_SIZE))
        % SIZE_MOD = (mem b).size - r - BLOCK_HEADER_SIZE := by
      unfold SIZE_MOD BLOCK_HEADER_SIZE MIN_BLOCK_SIZE at *
      omega
    rw [hns] at s2
    have hdis := disjoint_of_pairwise mem l1 l2 b hp
    have hne : ∀ q ∈ l1 ++ l2, q ≠ b ∧ q ≠ b + BLOCK_HEADER_SIZE + r := by
      intro q hq
      have := hdis q hq
      unfold disjoint_blocks payload_end at this
      unfold BLOCK_HEADER_SIZE MIN_BLOCK_SIZE at *
      omega
    refine ⟨s1, s2, s3, hne, ?_, ?_⟩
    · exact chain_splice mem _ b _ l2 l1 start hc hne s3 (by rw [s1]) (by rw [s2])
    · have e1 : total_of (split_block mem b r) l1 = total_of mem l1 :=
        total_of_congr _ _ _ (fun q hq => by
          have := hne q (List.mem_append_left _ hq)
          rw [s3 q this.1 this.2])
      have e2 : total_of (split_block mem b r) l2 = total_of mem l2 :=
        total_of_congr _ _ _ (fun q hq => by
          have := hne q (List.mem_append_right _ hq)
          rw [s3 q this.1 this.2])
      rw [total_of_append, total_of_append]
      simp only [total_of]
      rw [e1, e2, s1, s2]
      simp only
      unfold BLOCK_HEADER_SIZE MIN_BLOCK_SIZE at *
      omega

/-- The reuse path of `my_malloc`: when `find_free_block` returns a block, the
call returns that block's payload and the arena is the old one with the free
flag cleared and `split_block` applied. -/
theorem my_malloc_reuse (fuel : Nat) (h : Heap) (s b : Nat) (hs : 0 < s)
    (hfind : find_free_block fuel h (align_size s) = some (some b)) :
    my_malloc fuel h s = some (some (b + BLOCK_HEADER_SIZE),
      { h with heap_initialized := true,
               mem := split_block (set_is_free h.mem b 0) b (align_size s) }) := by
  have hs0 : ¬ s ≤ 0 := by omega
  obtain ⟨mem, start, off, init⟩ := h
  cases start with
  | none =>
    exfalso
    have : find_free_block fuel ⟨mem, none, off, init⟩ (align_size s) = some none := by
      unfold find_free_block
      cases fuel <;> rfl
    rw [this] at hfind
    simp at hfind
  | some st =>
    have hf2 : find_free_block fuel ⟨mem, some st, off, true⟩ (align_size s)
        = some (some b) := hfind
    unfold my_malloc
    rw [if_neg hs0]
    simp only [hf2]

/-- Clearing a free flag keeps a state's list, its disjointness and its sizes. -/
theorem wellformed_clear_flag (h : Heap) (l : List Nat) (b : Nat) (hwf : WellFormed h l) :
    Chain (set_is_free h.mem b 0) h.heap_start l ∧
      l.Pairwise (disjoint_blocks (set_is_free h.mem b 0)) := by
  obtain ⟨hbl, hpw, _, _⟩ := hwf
  have hc := chain_of_block_list h.mem l l.length h.heap_start hbl
  refine ⟨chain_congr h.mem _ l _ (fun q _ => set_is_free_next h.mem b 0 q) hc, ?_⟩
  refine List.Pairwise.imp ?_ hpw
  intro p q hpq
  unfold disjoint_blocks payload_end at hpq ⊢
  rw [set_is_free_size, set_is_free_size]
  exact hpq

/-- No other block of a pairwise disjoint list is at the offset of `b`. -/
theorem not_mem_of_pairwise (mem : Nat → block_t) (l1 l2 : List Nat) (b : Nat)
    (hp : (l1 ++ b :: l2).Pairwise (disjoint_blocks mem)) : b ∉ l1 ∧ b ∉ l2 := by
  have hdis := disjoint_of_pairwise mem l1 l2 b hp
  have hne : ∀ q ∈ l1 ++ l2, q ≠ b := by
    intro q hq
    have := hdis q hq
    unfold disjoint_blocks payload_end BLOCK_HEADER_SIZE at this
    omega
  exact ⟨fun hb => hne b (List.mem_append_left _ hb) rfl,
    fun hb => hne b (List.mem_append_right _ hb) rfl⟩

/-- In a well-formed state the block returned by `find_free_block` passes the
test and no block before it in the list does. -/
theorem wellformed_first_fit (fuel : Nat) (h : Heap) (l1 l2 : List Nat) (t b : Nat)
    (hwf : WellFormed h (l1 ++ b :: l2))
    (hfind : find_free_block fuel h t = some (some b)) :
    fits h.mem t b ∧ ∀ q ∈ l1, ¬ fits h.mem t q := by
  have hc := chain_of_block_list h.mem _ _ h.heap_start hwf.1
  have h1 : find_free_block_loop h.mem t (max fuel (l1 ++ b :: l2).length) h.heap_start
      = some (some b) :=
    find_free_block_loop_fuel_mono h.mem t fuel _ _ _ (Nat.le_max_left _ _) hfind
  rw [find_free_block_loop_eq_find h.mem t _ _ _ hc (Nat.le_max_right _ _)] at h1
  simp only [Option.some.injEq] at h1
  obtain ⟨h2, as, bs, h3, h4⟩ := List.find?_eq_some.1 h1
  obtain ⟨hn1, hn2⟩ := not_mem_of_pairwise h.mem l1 l2 b hwf.2.1
  obtain ⟨e1, _, _⟩ := (List.append_cons_inj_of_not_mem hn1 hn2).1 h3
  refine ⟨by simpa using h2, ?_⟩
  intro q hq
  rw [e1] at hq
  simpa using h4 q hq

/-- A walk that stands on a block whose `next` link points at the block itself
never reaches `NULL`: the block list is never complete, whatever the fuel. -/
theorem block_list_loop_self_link (mem : Nat → block_t) (p : Nat)
    (hp : (mem p).next = some p) (fuel : Nat) :
    block_list_loop mem fuel (some p) = none := by
  induction fuel with
  | zero => rfl
  | succ n ih => simp only [block_list_loop, hp, ih]

/-! ### Provisioning, frame and refinement on well-formed states -/

/-- Appending to a `NULL`-terminated list without repeats: once a header with a
`NULL` link is in place at `e`, outside the list, the append loop of `my_malloc`
finds the last block, and linking it to `e` extends the list by `e`. -/
theorem chain_append (mem mem1 : Nat → block_t) (e : Nat) :
    ∀ (rest : List Nat) (a fuel : Nat),
      Chain mem (some a) (a :: rest) → (a :: rest).Nodup → e ∉ a :: rest →
      (∀ q ∈ a :: rest, mem1 q = mem q) → (mem1 e).next = none →
      rest.length < fuel →
      ∃ t, find_tail mem1 fuel a = some t ∧ t ∈ a :: rest ∧
        Chain (set_next mem1 t (some e)) (some a) (a :: rest ++ [e]) := by
  intro rest
  induction rest with
  | nil =>
    intro a fuel hc _ he hag hnew hfuel
    obtain ⟨_, h2⟩ := hc
    simp only [Chain] at h2
    have ha : mem1 a = mem a := hag a (List.mem_cons_self _ _)
    have hea : e ≠ a := fun h => he (h ▸ List.mem_cons_self _ _)
    obtain ⟨k, rfl⟩ : ∃ k, fuel = k + 1 := ⟨fuel - 1, by omega⟩
    refine ⟨a, ?_, List.mem_cons_self _ _, ?_⟩
    · simp only [find_tail, ha, h2]
    · refine ⟨rfl, ?_⟩
      simp only [set_next, Function.update_same, List.nil_append]
      refine ⟨rfl, ?_⟩
      rw [Function.update_noteq hea, hnew]
      rfl
  | cons q rest2 ih =>
    intro a fuel hc hnd he hag hnew hfuel
    obtain ⟨_, h2⟩ := hc
    have hnext : (mem a).next = some q := h2.1
    have hcq : Chain mem (some q) (q :: rest2) := ⟨rfl, h2.2⟩
    have hnd2 : (q :: rest2).Nodup := (List.nodup_cons.1 hnd).2
    have haq : a ∉ q :: rest2 := (List.nodup_cons.1 hnd).1
    have he2 : e ∉ q :: rest2 := fun h => he (List.mem_cons_of_mem _ h)
    obtain ⟨k, rfl⟩ : ∃ k, fuel = k + 1 := ⟨fuel - 1, by omega⟩
    obtain ⟨t, ht1, ht2, ht3⟩ :=
      ih q k hcq hnd2 he2 (fun x hx => hag x (List.mem_cons_of_mem _ hx)) hnew
        (by simp only [List.length_cons] at hfuel; omega)
    have ha : mem1 a = mem a := hag a (List.mem_cons_self _ _)
    have hta : a ≠ t := fun h => haq (h ▸ ht2)
    refine ⟨t, ?_, List.mem_cons_of_mem _ ht2, ?_⟩
    · simp only [find_tail, ha, hnext]
      exact ht1
    · refine ⟨rfl, ?_⟩
      have hat : set_next mem1 t (some e) a = mem a := by
        simp only [set_next]
        rw [Function.update_noteq hta, ha]
      rw [hat, hnext]
      exact ht3

/-- Blocks of a pairwise disjoint list are at distinct offsets. -/
theorem nodup_of_pairwise (mem : Nat → block_t) (l : List Nat)
    (hp : l.Pairwise (disjoint_blocks mem)) : l.Nodup := by
  refine List.Pairwise.imp ?_ hp
  intro p q hpq
  unfold disjoint_blocks payload_end BLOCK_HEADER_SIZE at hpq
  omega

/-- The value of `align_size` is a multiple of 8 for every request, wrapped or
not. -/
theorem align_size_mod8 (s : Nat) : align_size s % 8 = 0 := by
  unfold align_size SIZE_MOD
  rw [land_mask_eq _ (Nat.mod_lt _ (by norm_num))]
  omega

/-- The provisioning path in a well-formed state, for a request that fits in the
arena: `my_malloc` returns the payload of a new non-free
block of size `align_size s` written at the high-water mark, which advances by
`BLOCK_HEADER_SIZE + align_size s`; the new list is the old one followed by the
new block, the old blocks keep their sizes and flags, and the state is well
formed again. -/
theorem wellformed_provision (fuel : Nat) (h : Heap) (l : List Nat) (s : Nat)
    (hwf : WellFormed h l) (hs : 0 < s) (hfuel : l.length ≤ fuel)
    (hfind : find_free_block fuel h (align_size s) = some none)
    (hfits : h.heap_offset + BLOCK_HEADER_SIZE + align_size s ≤ HEAP_SIZE) :
    ∃ h1, my_malloc fuel h s = some (some (h.heap_offset + BLOCK_HEADER_SIZE), h1) ∧
      h1.heap_offset = h.heap_offset + BLOCK_HEADER_SIZE + align_size s ∧
      block_list (l.length + 1) h1 = some (l ++ [h.heap_offset]) ∧
      h1.mem h.heap_offset = { size := align_size s, is_free := 0, next := none } ∧
      (∀ q ∈ l, (h1.mem q).size = (h.mem q).size ∧ (h1.mem q).is_free = (h.mem q).is_free) ∧
      WellFormed h1 (l ++ [h.heap_offset]) := by
  obtain ⟨hbl, hpw, hend, hcap⟩ := hwf
  have hc := chain_of_block_list h.mem l l.length h.heap_start hbl
  have hs0 : ¬ s ≤ 0 := by omega
  have hnd := nodup_of_pairwise h.mem l hpw
  obtain ⟨mem, start, off, init⟩ := h
  simp only at hc hpw hend hcap hfits hfind ⊢
  have hel : off ∉ l := by
    intro hin
    have := hend off hin
    unfold payload_end BLOCK_HEADER_SIZE at this
    omega
  have hsum : (off + (BLOCK_HEADER_SIZE + align_size s) % SIZE_MOD) % SIZE_MOD
      = off + BLOCK_HEADER_SIZE + align_size s := by
    unfold SIZE_MOD BLOCK_HEADER_SIZE HEAP_SIZE at *
    omega
  have hcond : ¬ (off + (BLOCK_HEADER_SIZE + align_size s) % SIZE_MOD) % SIZE_MOD > HEAP_SIZE := by
    rw [hsum]; omega
  have hreq : ∀ st, request_space ⟨mem, st, off, true⟩ (align_size s)
      = (some off, ⟨set_next (set_is_free (set_size mem off (align_size s)) off 0) off none,
          st, off + BLOCK_HEADER_SIZE + align_size s, true⟩) := by
    intro st
    unfold request_space
    rw [if_neg hcond]
    simp only [hsum]
  have hold : ∀ q ∈ l,
      set_next (set_is_free (set_size mem off (align_size s)) off 0) off none q = mem q :=
    fun q hq => header_written_other mem off _ q (fun h => hel (h ▸ hq))
  -- the facts about the final arena `m2`, whatever the tail `t` is
  have hfinal : ∀ (m2 : Nat → block_t) (st : Option Nat),
      (∀ q ∈ l, (m2 q).size = (mem q).size ∧ (m2 q).is_free = (mem q).is_free) →
      (m2 off).size = align_size s →
      Chain m2 st (l ++ [off]) →
      WellFormed ⟨m2, st, off + BLOCK_HEADER_SIZE + align_size s, true⟩ (l ++ [off]) := by
    intro m2 st hsame hnewsz hch
    have hpe : ∀ q ∈ l, payload_end m2 q = payload_end mem q := by
      intro q hq; unfold payload_end; rw [(hsame q hq).1]
    refine ⟨block_list_of_chain m2 _ _ _ hch (Nat.le_refl _), ?_, ?_, hfits⟩
    · rw [List.pairwise_append]
      refine ⟨?_, List.pairwise_singleton _ _, ?_⟩
      · refine List.Pairwise.imp_of_mem ?_ hpw
        intro p q hp hq hpq
        unfold disjoint_blocks at hpq ⊢
        rw [hpe p hp, hpe q hq]
        exact hpq
      · intro p hp q hq
        simp only [List.mem_singleton] at hq
        subst hq
        left
        rw [hpe p hp]
        exact hend p hp
    · intro p hp
      rcases List.mem_append.1 hp with hp | hp
      · rw [hpe p hp]
        have := hend p hp
        show _ ≤ off + BLOCK_HEADER_SIZE + align_size s
        omega
      · simp only [List.mem_singleton] at hp
        subst hp
        unfold payload_end
        rw [hnewsz]
  unfold my_malloc
  rw [if_neg hs0]
  cases l with
  | nil =>
    simp only [Chain] at hc
    subst hc
    have hch : Chain (set_next (set_is_free (set_size mem off (align_size s)) off 0) off none)
        (some off) ([] ++ [off]) := by
      refine ⟨rfl, ?_⟩
      rw [header_written]
      rfl
    refine ⟨⟨set_next (set_is_free (set_size mem off (align_size s)) off 0) off none,
        some off, off + BLOCK_HEADER_SIZE + align_size s, true⟩, by simp only [hreq], rfl,
      block_list_of_chain _ _ _ _ hch (Nat.le_refl _), header_written _ _ _, ?_, ?_⟩
    · intro q hq; simp at hq
    · exact hfinal _ _ (fun q hq => by simp at hq) (by rw [header_written]) hch
  | cons a rest =>
    have hstart : start = some a := hc.1
    subst hstart
    have hf2 : find_free_block fuel ⟨mem, some a, off, true⟩ (align_size s) = some none :=
      hfind
    obtain ⟨t, ht1, ht2, ht3⟩ :=
      chain_append mem
        (set_next (set_is_free (set_size mem off (align_size s)) off 0) off none) off
        rest a fuel hc hnd hel hold (by rw [header_written])
        (by simp only [List.length_cons] at hfuel; omega)
    have hto : off ≠ t := fun h => hel (h ▸ ht2)
    have hsame : ∀ q ∈ a :: rest,
        (set_next (set_next (set_is_free (set_size mem off (align_size s)) off 0) off none)
            t (some off) q).size = (mem q).size ∧
        (set_next (set_next (set_is_free (set_size mem off (align_size s)) off 0) off none)
            t (some off) q).is_free = (mem q).is_free := by
      intro q hq
      have hq2 := hold q hq
      unfold set_next at hq2 ⊢
      by_cases hqt : q = t
      · subst hqt
        simp only [Function.update_same]
        rw [hq2]
        exact ⟨rfl, rfl⟩
      · rw [Function.update_noteq hqt, hq2]
        exact ⟨rfl, rfl⟩
    have hnewh : set_next (set_next (set_is_free (set_size mem off (align_size s)) off 0) off none)
        t (some off) off = { size := align_size s, is_free := 0, next := none } := by
      have := header_written mem off (align_size s)
      unfold set_next at this ⊢
      rw [Function.update_noteq hto, this]
    refine ⟨⟨set_next (set_next (set_is_free (set_size mem off (align_size s)) off 0) off none)
        t (some off), some a, off + BLOCK_HEADER_SIZE + align_size s, true⟩,
      by simp only [hf2, hreq, ht1], rfl, ?_, hnewh, hsame, ?_⟩
    · exact block_list_of_chain _ _ _ _ ht3
        (by simp only [List.length_append, List.length_cons, List.length_nil]; omega)
    · exact hfinal _ _ hsame (by rw [hnewh]) ht3

/-- The frame of a successful `my_malloc` in a well-formed state, for a request
whose byte count `heap_offset + BLOCK_HEADER_SIZE + align_size s` does not wrap:
either a fitting free block existed, the call returned its payload, the
high-water mark did not move and only that block and its split remainder
changed; or no fitting free block existed, the high-water mark advanced by
exactly `BLOCK_HEADER_SIZE + align_size s`, and the new list is the old one, with
sizes and flags unchanged, followed by the new non-free block of size
`align_size s`. -/
theorem my_malloc_frame (fuel : Nat) (h : Heap) (l : List Nat) (s p : Nat) (h1 : Heap)
    (hwf : WellFormed h l) (hs : 0 < s)
    (hnw : h.heap_offset + BLOCK_HEADER_SIZE + align_size s < SIZE_MOD)
    (hfuel : l.length ≤ fuel)
    (hm : my_malloc fuel h s = some (some p, h1)) :
    (∃ b, find_free_block fuel h (align_size s) = some (some b) ∧
        p = b + BLOCK_HEADER_SIZE ∧ h1.heap_offset = h.heap_offset ∧
        ∀ q, q ≠ b → q ≠ b + BLOCK_HEADER_SIZE + align_size s → h1.mem q = h.mem q) ∨
    (find_free_block fuel h (align_size s) = some none ∧
        p = h.heap_offset + BLOCK_HEADER_SIZE ∧
        h1.heap_offset = h.heap_offset + BLOCK_HEADER_SIZE + align_size s ∧
        block_list (l.length + 1) h1 = some (l ++ [h.heap_offset]) ∧
        h1.mem h.heap_offset = { size := align_size s, is_free := 0, next := none } ∧
        ∀ q ∈ l, (h1.mem q).size = (h.mem q).size ∧
          (h1.mem q).is_free = (h.mem q).is_free) := by
  have hc := chain_of_block_list h.mem l l.length h.heap_start hwf.1
  have hfind := find_free_block_loop_eq_find h.mem (align_size s) l fuel h.heap_start hc hfuel
  cases hr : l.find? (fun q => decide (fits h.mem (align_size s) q)) with
  | some b =>
    rw [hr] at hfind
    left
    have hres := my_malloc_reuse fuel h s b hs hfind
    rw [hres] at hm
    simp only [Option.some.injEq, Prod.mk.injEq] at hm
    obtain ⟨hp, hh⟩ := hm
    subst hh
    refine ⟨b, hfind, hp.symm, rfl, ?_⟩
    intro q hq1 hq2
    show split_block (set_is_free h.mem b 0) b (align_size s) q = h.mem q
    have hfit : fits h.mem (align_size s) b := by
      simpa using List.find?_some hr
    have hend := hwf.2.2.1 b (List.mem_of_find?_eq_some hr)
    have hin : b + BLOCK_HEADER_SIZE + align_size s < SIZE_MOD := by
      have h1 := hfit.2
      have h2 := hwf.2.2.2
      unfold payload_end at hend
      unfold SIZE_MOD HEAP_SIZE at *
      omega
    by_cases hlt : (set_is_free h.mem b 0 b).size
        < (align_size s + BLOCK_HEADER_SIZE + MIN_BLOCK_SIZE) % SIZE_MOD
    · rw [split_block_whole _ _ _ hlt, set_is_free_other _ _ _ _ hq1]
    · rw [(split_block_splits _ _ _ hlt hin).2.2 q hq1 hq2, set_is_free_other _ _ _ _ hq1]
  | none =>
    rw [hr] at hfind
    right
    have hcap := hwf.2.2.2
    by_cases hfits : h.heap_offset + BLOCK_HEADER_SIZE + align_size s ≤ HEAP_SIZE
    · obtain ⟨h2, hm2, e1, e2, e3, e4, _⟩ :=
        wellformed_provision fuel h l s hwf hs hfuel hfind hfits
      rw [hm2] at hm
      simp only [Option.some.injEq, Prod.mk.injEq] at hm
      obtain ⟨hp, hh⟩ := hm
      subst hh
      exact ⟨hfind, hp.symm, e1, e2, e3, e4⟩
    · exfalso
      have hfail : (request_space h (align_size s)).1 = none := by
        rw [request_space_fails_iff]
        unfold SIZE_MOD BLOCK_HEADER_SIZE HEAP_SIZE at *
        omega
      have hs0 : ¬ s ≤ 0 := by omega
      rw [request_space_fails_iff] at hfail
      obtain ⟨mem, start, off, init⟩ := h
      have hreq : ∀ st, request_space ⟨mem, st, off, true⟩ (align_size s)
          = (none, ⟨mem, st, off, true⟩) := by
        intro st
        unfold request_space
        exact if_pos hfail
      unfold my_malloc at hm
      rw [if_neg hs0] at hm
      cases start with
      | none => simp [hreq] at hm
      | some st =>
        have hf2 : find_free_block fuel ⟨mem, some st, off, true⟩ (align_size s)
            = some none := hfind
        simp [hf2, hreq] at hm
/-- The three assignments of `request_space` leave every size field a multiple
of 8 when the size written is one. -/
theorem header_written_aligned (mem : Nat → block_t) (block size : Nat)
    (hal : ∀ p, (mem p).size % 8 = 0) (hsz : size % 8 = 0) :
    ∀ p, (set_next (set_is_free (set_size mem block size) block 0) block none p).size % 8
      = 0 := by
  intro p
  by_cases hp : p = block
  · subst hp; rw [header_written]; exact hsz
  · rw [header_written_other _ _ _ _ hp]; exact hal p

/-- Writing a link changes no size. -/
theorem set_next_size (mem : Nat → block_t) (b : Nat) (v : Option Nat) (q : Nat) :
    (set_next mem b v q).size = (mem q).size := by
  unfold set_next
  by_cases hq : q = b
  · subst hq; simp only [Function.update_same]
  · rw [Function.update_noteq hq]

/-- The function `split_block` keeps every size field a multiple of 8 when the
request is one. -/
theorem split_block_aligned (mem : Nat → block_t) (b r : Nat)
    (hal : ∀ p, (mem p).size % 8 = 0) (hr : r % 8 = 0) :
    ∀ p, (split_block mem b r p).size % 8 = 0 := by
  intro p
  by_cases hlt : (mem b).size < (r + BLOCK_HEADER_SIZE + MIN_BLOCK_SIZE) % SIZE_MOD
  · rw [split_block_whole _ _ _ hlt]; exact hal p
  · have hns : ((mem b).size + (SIZE_MOD - r % SIZE_MOD) + (SIZE_MOD - BLOCK_HEADER_SIZE))
        % SIZE_MOD % 8 = 0 := by
      have := hal b
      unfold SIZE_MOD BLOCK_HEADER_SIZE
      omega
    unfold split_block
    rw [if_neg hlt]
    simp only [set_next_size]
    unfold set_size
    by_cases hp1 : p = b
    · subst hp1; simp only [Function.update_same]; exact hr
    · rw [Function.update_noteq hp1, set_next_size, set_is_free_size]
      by_cases hp2 : p = (b + BLOCK_HEADER_SIZE + r) % SIZE_MOD
      · subst hp2; simp only [Function.update_same]; exact hns
      · rw [Function.update_noteq hp2]; exact hal p

/-- In the header map every path of `my_malloc` (failure, fresh provisioning,
reuse without split, reuse with split) keeps every size field a multiple of 8.
The header map describes the C program as long as no two headers partially
overlap, which is the case in every well-formed state. -/
theorem my_malloc_keeps_sizes_aligned (fuel : Nat) (h : Heap) (s : Nat)
    (r : Option Nat) (h1 : Heap)
    (hal : ∀ p, (h.mem p).size % 8 = 0)
    (hm : my_malloc fuel h s = some (r, h1)) :
    ∀ p, (h1.mem p).size % 8 = 0 := by
  have ha := align_size_mod8 s
  obtain ⟨mem, start, off, init⟩ := h
  simp only at hal
  unfold my_malloc at hm
  by_cases hs : s ≤ 0
  · rw [if_pos hs] at hm
    simp only [Option.some.injEq, Prod.mk.injEq] at hm
    rw [← hm.2]; exact hal
  · rw [if_neg hs] at hm
    have hreq : ∀ st, ∀ p,
        ((request_space ⟨mem, st, off, true⟩ (align_size s)).2.mem p).size % 8 = 0 := by
      intro st p
      by_cases hc : (off + (BLOCK_HEADER_SIZE + align_size s) % SIZE_MOD) % SIZE_MOD
          > HEAP_SIZE
      · have e : request_space ⟨mem, st, off, true⟩ (align_size s)
            = (none, ⟨mem, st, off, true⟩) := by
          unfold request_space
          exact if_pos hc
        rw [e]
        exact hal p
      · have e : request_space ⟨mem, st, off, true⟩ (align_size s)
            = (some off,
                ⟨set_next (set_is_free (set_size mem off (align_size s)) off 0) off none, st,
                  (off + (BLOCK_HEADER_SIZE + align_size s) % SIZE_MOD) % SIZE_MOD, true⟩) := by
          unfold request_space
          exact if_neg hc
        rw [e]
        exact header_written_aligned mem off _ hal ha p
    cases start with
    | none =>
      simp only at hm
      rcases hq : request_space ⟨mem, none, off, true⟩ (align_size s) with ⟨ob, h2⟩
      have hq2 := hreq none
      rw [hq] at hm hq2
      cases ob with
      | none =>
        simp only [Option.some.injEq, Prod.mk.injEq] at hm
        rw [← hm.2]; exact hq2
      | some b =>
        simp only [Option.some.injEq, Prod.mk.injEq] at hm
        rw [← hm.2]; exact hq2
    | some st =>
      simp only at hm
      cases hf : find_free_block fuel ⟨mem, some st, off, true⟩ (align_size s) with
      | none => simp [hf] at hm
      | some fb =>
        rw [hf] at hm
        cases fb with
        | some b =>
          simp only [Option.some.injEq, Prod.mk.injEq] at hm
          rw [← hm.2]
          exact split_block_aligned _ b _
            (fun p => by rw [set_is_free_size]; exact hal p) ha
        | none =>
          simp only at hm
          rcases hq : request_space ⟨mem, some st, off, true⟩ (align_size s) with ⟨ob, h2⟩
          have hq2 := hreq (some st)
          rw [hq] at hm hq2
          cases ob with
          | none =>
            simp only [Option.some.injEq, Prod.mk.injEq] at hm
            rw [← hm.2]; exact hq2
          | some b =>
            simp only at hm
            cases ht : find_tail h2.mem fuel st with
            | none => simp [ht] at hm
            | some t =>
              rw [ht] at hm
              simp only [Option.some.injEq, Prod.mk.injEq] at hm
              rw [← hm.2]
              intro p
              show (set_next h2.mem t (some b) p).size % 8 = 0
              rw [set_next_size]
              exact hq2 p

/-- Every offset of a packed layout ends at or before the end of the layout. -/
theorem packed_offsets_end (mem : Nat → block_t) :
    ∀ (szs : List Nat) (p : Option Nat) (a : Nat), Packed mem p a szs →
      ∀ q ∈ packed_offsets a szs, payload_end mem q ≤ a + committed szs := by
  intro szs
  induction szs with
  | nil => intro p a _ q hq; simp [packed_offsets] at hq
  | cons sz rest ih =>
    intro p a hp q hq
    obtain ⟨_, h2, _, h4⟩ := hp
    simp only [packed_offsets, List.mem_cons] at hq
    simp only [committed]
    rcases hq with rfl | hq
    · unfold payload_end
      rw [h2]
      omega
    · have := ih _ _ h4 q hq
      omega

/-- A packed state is well formed: the states reached by requests that cannot
wrap are among the well-formed ones. -/
theorem wellformed_of_packed (h : Heap) (szs : List Nat) (hp : PackedHeap h szs) :
    WellFormed h (packed_offsets 0 szs) := by
  obtain ⟨hpk, hoff, hcap, _⟩ := hp
  have hlen : ∀ (l : List Nat) (a : Nat), (packed_offsets a l).length = l.length := by
    intro l
    induction l with
    | nil => intro a; rfl
    | cons x rest ih => intro a; simp only [packed_offsets, List.length_cons, ih]
  refine ⟨?_, ?_, ?_, hcap⟩
  · exact packed_block_list h.mem szs h.heap_start 0 _ hpk (by rw [hlen])
  · refine List.Pairwise.imp ?_ (packed_separated h.mem szs h.heap_start 0 hpk)
    intro p q hpq
    exact Or.inl hpq
  · intro q hq
    have := packed_offsets_end h.mem szs h.heap_start 0 hpk q hq
    omega
/-- The offsets of a packed layout with one more block at the end. -/
theorem packed_offsets_append : ∀ (szs : List Nat) (a x : Nat),
    packed_offsets a (szs ++ [x]) = packed_offsets a szs ++ [a + committed szs] := by
  intro szs
  induction szs with
  | nil => intro a x; simp [packed_offsets, committed]
  | cons sz rest ih =>
    intro a x
    have e : a + BLOCK_HEADER_SIZE + sz + committed rest
        = a + (sz + BLOCK_HEADER_SIZE + committed rest) := by omega
    show a :: packed_offsets (a + BLOCK_HEADER_SIZE + sz) (rest ++ [x])
      = a :: (packed_offsets (a + BLOCK_HEADER_SIZE + sz) rest ++ [a + committed (sz :: rest)])
    rw [ih]
    simp only [committed, e]

/-- A packed layout has one offset per size. -/
theorem packed_offsets_length : ∀ (szs : List Nat) (a : Nat),
    (packed_offsets a szs).length = szs.length := by
  intro szs
  induction szs with
  | nil => intro a; rfl
  | cons x rest ih => intro a; simp only [packed_offsets, List.length_cons, ih]

/-- The blocks of a packed list have the listed sizes and are not free. -/
theorem packed_zip (mem : Nat → block_t) :
    ∀ (szs : List Nat) (p : Option Nat) (a : Nat), Packed mem p a szs →
      ∀ b ∈ (packed_offsets a szs).zip szs, (mem b.1).size = b.2 ∧ (mem b.1).is_free = 0 := by
  intro szs
  induction szs with
  | nil => intro p a _ b hb; simp [packed_offsets] at hb
  | cons sz rest ih =>
    intro p a hp b hb
    obtain ⟨_, h2, h3, h4⟩ := hp
    simp only [packed_offsets, List.zip_cons_cons, List.mem_cons] at hb
    rcases hb with rfl | hb
    · exact ⟨h2, h3⟩
    · exact ih _ _ h4 b hb

/-- On a packed state and for requests that cannot wrap, a run of `my_malloc`
and the run of the pure bump allocator started with the same blocks and
high-water mark return the same pointers and stay in step. -/
theorem packed_heap_run_refines (sizes : List Nat) :
    ∀ (fuel : Nat) (h : Heap) (szs : List Nat) (st : BumpState), PackedHeap h szs →
      st.hwm = h.heap_offset → st.blocks = (packed_offsets 0 szs).zip szs →
      (∀ s ∈ sizes, no_wrap s) → szs.length + sizes.length ≤ fuel →
      ∃ h1 szs1, run_mallocs fuel h sizes = some ((bump_run st sizes).1, h1) ∧
        PackedHeap h1 szs1 ∧ (bump_run st sizes).2.hwm = h1.heap_offset ∧
        (bump_run st sizes).2.blocks = (packed_offsets 0 szs1).zip szs1 ∧
        szs1.length ≤ szs.length + sizes.length := by
  induction sizes with
  | nil =>
    intro fuel h szs st hinv hh hb _ _
    exact ⟨h, szs, rfl, hinv, hh, hb, by simp⟩
  | cons s rest ih =>
    intro fuel h szs st hinv hh hb hw hfuel
    have hw1 : no_wrap s := hw s (List.mem_cons_self _ _)
    have hw2 : ∀ t ∈ rest, no_wrap t := fun t ht => hw t (List.mem_cons_of_mem _ ht)
    simp only [List.length_cons] at hfuel
    have hcap := hinv.2.2.1
    have hbnd := round_up_bounds s
    have hal : align_size s = (s + 7) / 8 * 8 :=
      align_size_eq s (by unfold no_wrap SIZE_MOD at *; omega)
    by_cases hs : s = 0
    · subst hs
      have hm : my_malloc fuel h 0 = some (none, h) := by simp [my_malloc]
      have hbm : bump_malloc st 0 = (none, st) := by simp [bump_malloc]
      obtain ⟨h1, szs1, hrun, hpk, e1, e2, e3⟩ := ih fuel h szs st hinv hh hb hw2 (by omega)
      refine ⟨h1, szs1, ?_, hpk, ?_, ?_, by simp only [List.length_cons]; omega⟩
      · simp only [run_mallocs, hm, hrun, bump_run, hbm]
      · simp only [bump_run, hbm]; exact e1
      · simp only [bump_run, hbm]; exact e2
    · have hsum : (st.hwm + (BLOCK_HEADER_SIZE + align_size s) % SIZE_MOD) % SIZE_MOD
          = h.heap_offset + BLOCK_HEADER_SIZE + (s + 7) / 8 * 8 := by
        rw [hal, hh]
        unfold no_wrap SIZE_MOD BLOCK_HEADER_SIZE HEAP_SIZE at *
        omega
      by_cases hfull : h.heap_offset + BLOCK_HEADER_SIZE + (s + 7) / 8 * 8 > HEAP_SIZE
      · have hm := packed_heap_my_malloc_full fuel h szs s hinv hw1 (by omega) (by omega) hfull
        have hbm : bump_malloc st s = (none, st) := by
          unfold bump_malloc
          rw [if_neg hs]
          simp only
          rw [hsum, if_pos hfull]
        have hinv1 : PackedHeap { h with heap_initialized := true } szs := hinv
        obtain ⟨h1, szs1, hrun, hpk, e1, e2, e3⟩ :=
          ih fuel _ szs st hinv1 hh hb hw2 (by omega)
        refine ⟨h1, szs1, ?_, hpk, ?_, ?_, by simp only [List.length_cons]; omega⟩
        · simp only [run_mallocs, hm, hrun, bump_run, hbm]
        · simp only [bump_run, hbm]; exact e1
        · simp only [bump_run, hbm]; exact e2
      · obtain ⟨h1, hm, hinv1, hoff1⟩ :=
          packed_heap_my_malloc_fits fuel h szs s hinv hw1 (by omega) (by omega) (by omega)
        have hbm : bump_malloc st s = (some (h.heap_offset + BLOCK_HEADER_SIZE),
            { blocks := st.blocks ++ [(h.heap_offset, (s + 7) / 8 * 8)],
              hwm := h.heap_offset + BLOCK_HEADER_SIZE + (s + 7) / 8 * 8 }) := by
          have hsum2 := hsum
          rw [hh, hal] at hsum2
          unfold bump_malloc
          rw [if_neg hs]
          simp only [hh, hal]
          rw [hsum2, if_neg hfull]
        have hb1 : st.blocks ++ [(h.heap_offset, (s + 7) / 8 * 8)]
            = (packed_offsets 0 (szs ++ [(s + 7) / 8 * 8])).zip (szs ++ [(s + 7) / 8 * 8]) := by
          rw [packed_offsets_append, List.zip_append (packed_offsets_length szs 0), hb,
            hinv.2.1, Nat.zero_add]
          rfl
        obtain ⟨h2, szs1, hrun, hpk, e1, e2, e3⟩ :=
          ih fuel h1 (szs ++ [(s + 7) / 8 * 8])
            { blocks := st.blocks ++ [(h.heap_offset, (s + 7) / 8 * 8)],
              hwm := h.heap_offset + BLOCK_HEADER_SIZE + (s + 7) / 8 * 8 }
            hinv1 hoff1.symm hb1 hw2
            (by simp only [List.length_append, List.length_singleton]; omega)
        refine ⟨h2, szs1, ?_, hpk, ?_, ?_, ?_⟩
        · simp only [run_mallocs, hm, hrun, bump_run, hbm]
        · simp only [bump_run, hbm]; exact e1
        · simp only [bump_run, hbm]; exact e2
        · simp only [List.length_append, List.length_singleton] at e3
          simp only [List.length_cons]
          omega

/-- Requests that cannot wrap, refinement: from the empty arena `my_malloc` and
the pure bump allocator return the same pointers on every such call sequence
and end with the same high-water mark and the same block list, the blocks having
the sizes the bump allocator recorded and none of them free. -/
theorem no_wrap_run_refines_bump (sizes : List Nat) (fuel : Nat)
    (hw : ∀ s ∈ sizes, no_wrap s) (hfuel : sizes.length ≤ fuel) :
    ∃ h, run_mallocs fuel empty_heap sizes
        = some ((bump_run { blocks := [], hwm := 0 } sizes).1, h) ∧
      h.heap_offset = (bump_run { blocks := [], hwm := 0 } sizes).2.hwm ∧
      block_list fuel h
        = some ((bump_run { blocks := [], hwm := 0 } sizes).2.blocks.map Prod.fst) ∧
      ∀ b ∈ (bump_run { blocks := [], hwm := 0 } sizes).2.blocks,
        (h.mem b.1).size = b.2 ∧ (h.mem b.1).is_free = 0 := by
  obtain ⟨h, szs1, hrun, hpk, e1, e2, e3⟩ :=
    packed_heap_run_refines sizes fuel empty_heap [] { blocks := [], hwm := 0 }
      packed_heap_empty rfl rfl hw (by simpa using hfuel)
  refine ⟨h, hrun, e1.symm, ?_, ?_⟩
  · rw [e2, List.map_fst_zip _ _ (by rw [packed_offsets_length])]
    exact packed_block_list h.mem szs1 h.heap_start 0 fuel hpk.1
      (by simp only [List.length_nil, Nat.zero_add] at e3; omega)
  · rw [e2]
    exact packed_zip h.mem szs1 h.heap_start 0 hpk.1

/-- On the basic scenario, where no headers overlap, the byte-layout model
returns the pointers, builds the list and records the sizes and flags that the
header map gives, whatever the sample address of `heap_buffer`. -/
theorem layout_agrees_on_basic_scenario :
    [0x404060, 0x555555558060, 0xFFFFFFF8].map (fun base =>
      (Layout.run_mallocs base 2 Layout.empty_heap [100, 200, 50]).map
          (fun r => (r.1, r.2.heap_offset,
            Layout.block_list_loop base r.2.words 3 r.2.heap_start,
            [0, 128, 352].map (fun p =>
              (Layout.get_size r.2.words p, Layout.get_is_free r.2.words p)))))
      = List.replicate 3
          ((run_mallocs 2 empty_heap [100, 200, 50]).map
            (fun r => (r.1, r.2.heap_offset, block_list 3 r.2,
              [0, 128, 352].map (fun p => ((r.2.mem p).size, ((r.2.mem p).is_free).toNat))))) := by
  rfl

/-! ### The claims -/

/-- C1: in every allocator state, `my_malloc(0)` returns `NULL` and the state
after the call is the state before it (block list, arena contents, high-water
mark and initialisation flag all untouched), whatever the fuel. -/
theorem my_malloc_zero (fuel : Nat) (h : Heap) :
    my_malloc fuel h 0 = some (none, h) := by
  simp [my_malloc]

/-- C2 (failing input): from the empty arena the calls `my_malloc(40)`,
`my_malloc(2^64 - 64)`, `my_malloc(8)` all succeed, the second because
`heap_offset + total_size` wraps past `2^64` to 24; the list is then the three
distinct blocks at offsets 0, 64, 24, and the payload of the block at 0 (bytes
24 to 63) contains both the header (24 to 47) and the payload (48 to 55) of the
block at 24: payload regions of distinct blocks are not disjoint. -/
theorem payloads_overlap_after_wrapped_request :
    ∃ h : Heap,
      run_mallocs 2 empty_heap [40, 2 ^ 64 - 64, 8]
        = some ([some 24, some 88, some 48], h) ∧
      Reachable h ∧
      block_list 3 h = some [0, 64, 24] ∧
      payloads_overlap h.mem 0 24 ∧
      payload_overlaps_header h.mem 0 24 := by
  refine ⟨_, rfl, ?_, ?_, ?_, ?_⟩
  · exact reachable_run_mallocs 2 [40, 2 ^ 64 - 64, 8] empty_heap _
      [some 24, some 88, some 48] Reachable.empty (by decide) (by rfl)
  · decide
  · decide
  · decide

/-- C3 (failing input): on the empty arena `my_malloc(2^64 - 1)` returns the
non-`NULL` pointer `0 + BLOCK_HEADER_SIZE`, yet `align_size(2^64 - 1)` wrapped
to 0 and the block recorded at offset 0 has payload size 0, which is below the
request (and below every multiple of 8 that is at least the request). -/
theorem size_max_request_grants_zero_bytes :
    ∃ h : Heap,
      my_malloc 0 empty_heap (2 ^ 64 - 1) = some (some (0 + BLOCK_HEADER_SIZE), h) ∧
      block_list 1 h = some [0] ∧
      align_size (2 ^ 64 - 1) = 0 ∧
      (h.mem 0).size = 0 ∧
      (h.mem 0).size < 2 ^ 64 - 1 := by
  refine ⟨_, rfl, ?_, ?_, ?_, ?_⟩ <;> decide

/-- C4 (failing input): on the empty arena (no block, so no fitting free block)
the request `2^64 - 24` has `heap_offset + BLOCK_HEADER_SIZE + align_size s`
equal to `2^64`, far above `HEAP_SIZE`, and `my_malloc` still returns a
non-`NULL` pointer, because `BLOCK_HEADER_SIZE + size` wraps to 0; and in the
state reached by following it with `my_malloc(8)`, where no block is free, a
further `my_malloc(8)` returns neither `NULL` nor a pointer, whatever the
fuel. -/
theorem oversized_request_passes_capacity_check :
    (∃ h : Heap,
      my_malloc 0 empty_heap (2 ^ 64 - 24) = some (some 24, h) ∧
      find_free_block 0 empty_heap (align_size (2 ^ 64 - 24)) = some none ∧
      empty_heap.heap_offset + BLOCK_HEADER_SIZE + align_size (2 ^ 64 - 24) > HEAP_SIZE) ∧
    (∃ h : Heap,
      run_mallocs 1 empty_heap [2 ^ 64 - 24, 8] = some ([some 24, some 24], h) ∧
      Reachable h ∧
      h.heap_offset + BLOCK_HEADER_SIZE + align_size 8 ≤ HEAP_SIZE ∧
      ∀ fuel, my_malloc fuel h 8 = none) := by
  refine ⟨⟨_, rfl, ?_, ?_⟩, ⟨_, rfl, ?_, ?_, ?_⟩⟩
  · decide
  · decide
  · exact reachable_run_mallocs 1 [2 ^ 64 - 24, 8] empty_heap _
      [some 24, some 24] Reachable.empty (by decide) (by rfl)
  · decide
  · intro fuel
    exact my_malloc_self_link fuel _ 8 0 (by decide) (by rfl) (by decide) (by decide)

/-- C5: whenever `my_malloc(s)`, `s > 0`, takes a provisioning path (the list is
empty, or `find_free_block` returned `NULL`) and `request_space` fails, the call
returns `NULL` and the state after it is the state before it: arena contents
(every block's size, free flag and link), `heap_start` and `heap_offset` are
unchanged; only `heap_initialized` is set. -/
theorem my_malloc_provision_failure_frame (fuel : Nat) (h : Heap) (s : Nat)
    (hs : 0 < s)
    (hpath : h.heap_start = none ∨ find_free_block fuel h (align_size s) = some none)
    (hfail : (request_space h (align_size s)).1 = none) :
    my_malloc fuel h s = some (none, { h with heap_initialized := true }) := by
  rw [request_space_fails_iff] at hfail
  have hs0 : ¬ s ≤ 0 := by omega
  obtain ⟨mem, start, off, init⟩ := h
  have hreq : ∀ st, request_space ⟨mem, st, off, true⟩ (align_size s)
      = (none, ⟨mem, st, off, true⟩) := by
    intro st
    unfold request_space
    exact if_pos hfail
  unfold my_malloc
  rw [if_neg hs0]
  cases start with
  | none =>
    simp only [hreq]
  | some start =>
    rcases hpath with hp | hp
    · simp at hp
    · have hp2 : find_free_block fuel ⟨mem, some start, off, true⟩ (align_size s)
          = some none := hp
      simp only [hp2, hreq]

/-- Witness for C5: on the empty arena a request of `HEAP_SIZE` bytes cannot be
provisioned (`24 + HEAP_SIZE > HEAP_SIZE`); the call returns `NULL` and leaves
the arena as it was. -/
theorem my_malloc_provision_failure_frame_witness :
    0 < HEAP_SIZE ∧
    (request_space empty_heap (align_size HEAP_SIZE)).1 = none ∧
    my_malloc 0 empty_heap HEAP_SIZE
      = some (none, { empty_heap with heap_initialized := true }) :=
  ⟨by decide, by decide,
    my_malloc_provision_failure_frame 0 empty_heap HEAP_SIZE (by decide) (Or.inl rfl)
      (by decide)⟩

/-- C6 (failing input): after `my_malloc(100)` the arena has
`HEAP_SIZE - 128` bytes left; `big = 2^64 - 24` is larger than that and
`small = 8` fits, yet `my_malloc(big)` returns the non-`NULL` pointer 152
instead of `NULL` (and leaves `heap_offset` at 128, so the following
`my_malloc(small)` returns the very same pointer 152). -/
theorem oversized_request_not_rejected :
    ∃ h1 h3 : Heap,
      my_malloc 0 empty_heap 100 = some (some 24, h1) ∧
      HEAP_SIZE - h1.heap_offset < 2 ^ 64 - 24 ∧
      h1.heap_offset + BLOCK_HEADER_SIZE + align_size 8 ≤ HEAP_SIZE ∧
      run_mallocs 2 h1 [2 ^ 64 - 24, 8] = some ([some 152, some 152], h3) := by
  refine ⟨_, _, rfl, ?_, ?_, rfl⟩
  · decide
  · decide

/-- C7 (failing input): from the empty arena `my_malloc(2^64 - 24)` and
`my_malloc(8)` both return non-`NULL` (k = 2), but the second call rewrites the
header at offset 0 and links it to itself, and `get_allocated_blocks` then never
returns, whatever the fuel: it does not return 2. -/
theorem allocated_count_diverges_after_aliasing :
    ∃ h : Heap,
      run_mallocs 1 empty_heap [2 ^ 64 - 24, 8] = some ([some 24, some 24], h) ∧
      h.heap_start = some 0 ∧ (h.mem 0).next = some 0 ∧
      ∀ fuel, get_allocated_blocks fuel h = none := by
  refine ⟨_, rfl, rfl, by decide, ?_⟩
  intro fuel
  exact get_allocated_blocks_loop_self_link _ 0 (by decide) fuel 0

/-- C8 (failing input): in the state reached by `my_malloc(8)`
`get_total_heap_size` is 32; the call `my_malloc(2^64 - 56)` then succeeds (the
capacity test wraps to 0) and appends a block of size `2^64 - 56`, after which
`get_total_heap_size` is 0: the total went down. -/
theorem total_heap_size_drops :
    ∃ h1 h2 : Heap,
      my_malloc 0 empty_heap 8 = some (some 24, h1) ∧
      get_total_heap_size 1 h1 = some 32 ∧
      my_malloc 1 h1 (2 ^ 64 - 56) = some (some 56, h2) ∧
      block_list 2 h2 = some [0, 32] ∧
      get_total_heap_size 2 h2 = some 0 := by
  refine ⟨_, _, rfl, ?_, rfl, ?_, ?_⟩ <;> decide

/-- C9 (counterexample): after allocating 100, 200 and 50 bytes on the empty
arena `get_total_heap_size` is 432, which is not `128 + 208 + 56` plus three
header sizes (464). -/
theorem basic_scenario_total_not_as_claimed :
    ∃ h : Heap,
      run_mallocs 2 empty_heap [100, 200, 50]
        = some ([some 24, some 152, some 376], h) ∧
      get_total_heap_size 3 h = some 432 ∧
      get_total_heap_size 3 h ≠ some (128 + 208 + 56 + 3 * BLOCK_HEADER_SIZE) := by
  refine ⟨_, rfl, ?_, ?_⟩ <;> decide

/-- C9 (amended): allocating 100, 200 and 50 bytes on the empty arena gives three
non-`NULL` pointers to three distinct blocks (headers at 0, 128, 352) of sizes
104, 200 and 56 whose payloads are pairwise disjoint and meet no other block's
header; `get_allocated_blocks` is 3 and `get_total_heap_size` is
`104 + 200 + 56` plus three header sizes. -/
theorem basic_allocation_scenario :
    ∃ h : Heap,
      run_mallocs 2 empty_heap [100, 200, 50]
        = some ([some (payload_start 0), some (payload_start 128),
            some (payload_start 352)], h) ∧
      block_list 3 h = some [0, 128, 352] ∧
      (h.mem 0).size = 104 ∧ (h.mem 128).size = 200 ∧ (h.mem 352).size = 56 ∧
      (∀ p ∈ [0, 128, 352], ∀ q ∈ [0, 128, 352], p ≠ q →
        ¬ payloads_overlap h.mem p q ∧ ¬ payload_overlaps_header h.mem p q) ∧
      get_allocated_blocks 3 h = some 3 ∧
      get_total_heap_size 3 h = some (104 + 200 + 56 + 3 * BLOCK_HEADER_SIZE) := by
  refine ⟨_, rfl, ?_, ?_, ?_, ?_, ?_, ?_, ?_⟩ <;> decide

/-- C10 (failing input): from the empty arena the calls `my_malloc(8)`,
`my_malloc(2^64 - 24)`, `my_malloc(8)` all succeed and leave `heap_offset` at
64, but the third call rewrites the header at offset 32 and links it to itself,
and `get_total_heap_size` then never returns, whatever the fuel: it does not
equal the high-water mark. -/
theorem total_heap_size_diverges_after_aliasing :
    ∃ h : Heap,
      run_mallocs 2 empty_heap [8, 2 ^ 64 - 24, 8]
        = some ([some 24, some 56, some 56], h) ∧
      Reachable h ∧
      h.heap_offset = 64 ∧
      h.heap_start = some 0 ∧ (h.mem 0).next = some 32 ∧ (h.mem 32).next = some 32 ∧
      ∀ fuel, get_total_heap_size fuel h = none := by
  refine ⟨_, rfl, ?_, by decide, rfl, by decide, by decide, ?_⟩
  · exact reachable_run_mallocs 2 [8, 2 ^ 64 - 24, 8] empty_heap _
      [some 24, some 56, some 56] Reachable.empty (by decide) (by rfl)
  · intro fuel
    cases fuel with
    | zero => rfl
    | succ n =>
      exact get_total_heap_size_loop_self_link _ 32 (by decide) n _

/-- C11 (counterexample): `align_size(2^64 - 1)` is 0, because `size + 7` wraps:
the result is below the request, so it is not a multiple of 8 at or above it;
the same holds for every request above `2^64 - 8`, for which no multiple of 8 at
or above the request fits in a `size_t`. -/
theorem align_size_wraps_to_zero :
    (2 ^ 64 - 1 : Nat) < SIZE_MOD ∧
    align_size (2 ^ 64 - 1) = 0 ∧
    ¬ (2 ^ 64 - 1 ≤ align_size (2 ^ 64 - 1)) ∧
    (∀ n, 2 ^ 64 - 8 < n → n < 2 ^ 64 → align_size n = 0) := by
  refine ⟨by decide, by decide, by decide, ?_⟩
  intro n h1 h2
  unfold align_size SIZE_MOD
  have : (n + 7) % 2 ^ 64 = n + 7 - 2 ^ 64 := by omega
  rw [this, land_mask_eq _ (by omega)]
  omega

/-- C11 (amended): for every request size `n` with `n + 7 < 2^64`, that is
`n <= 2^64 - 8`, `align_size(n)` is the smallest multiple of 8 that is at least
`n`: it is a multiple of 8, `align_size(n) >= n`, `align_size(n) - n < 8`, and
every multiple of 8 at or above `n` is at or above it; and `align_size(1) = 8`. -/
theorem align_size_rounds_up (n : Nat) (hn : n + 7 < SIZE_MOD) :
    align_size n % 8 = 0 ∧ n ≤ align_size n ∧ align_size n - n < 8 ∧
      (∀ m, m % 8 = 0 → n ≤ m → align_size n ≤ m) ∧ align_size 1 = 8 := by
  rw [align_size_eq n hn]
  refine ⟨by omega, by omega, by omega, ?_, by decide⟩
  intro m hm hnm
  omega

/-- Witness for C11: 100 is rounded up to 104, and `2^64 - 8`, the largest
request in the range, to itself. -/
theorem align_size_rounds_up_witness :
    (100 + 7 < SIZE_MOD ∧ align_size 100 = 104 ∧
      (align_size 100 % 8 = 0 ∧ 100 ≤ align_size 100 ∧ align_size 100 - 100 < 8 ∧
        (∀ m, m % 8 = 0 → 100 ≤ m → align_size 100 ≤ m) ∧ align_size 1 = 8)) ∧
    (2 ^ 64 - 8 + 7 < SIZE_MOD ∧ align_size (2 ^ 64 - 8) = 2 ^ 64 - 8 ∧
      (align_size (2 ^ 64 - 8) % 8 = 0 ∧ 2 ^ 64 - 8 ≤ align_size (2 ^ 64 - 8) ∧
        align_size (2 ^ 64 - 8) - (2 ^ 64 - 8) < 8 ∧
        (∀ m, m % 8 = 0 → 2 ^ 64 - 8 ≤ m → align_size (2 ^ 64 - 8) ≤ m) ∧
        align_size 1 = 8)) :=
  ⟨⟨by decide, by decide, align_size_rounds_up 100 (by decide)⟩,
    ⟨by decide, by decide, align_size_rounds_up (2 ^ 64 - 8) (by decide)⟩⟩

/-- C12 (failing input): on the empty arena `my_malloc(2^64 - 24)` succeeds
(`BLOCK_HEADER_SIZE + size` wraps to 0) and the list then holds a block at offset
0 of size `2^64 - 24`: header offset + header size + size is `2^64`, far beyond
`HEAP_SIZE`. -/
theorem block_exceeds_arena_after_wrapped_request :
    ∃ h : Heap,
      my_malloc 0 empty_heap (2 ^ 64 - 24) = some (some 24, h) ∧
      Reachable h ∧
      block_list 1 h = some [0] ∧
      (h.mem 0).size = 2 ^ 64 - 24 ∧
      0 + BLOCK_HEADER_SIZE + (h.mem 0).size > HEAP_SIZE := by
  refine ⟨_, rfl, ?_, by decide, by decide, by decide⟩
  exact Reachable.step 0 empty_heap _ (2 ^ 64 - 24) (some 24) Reachable.empty (by decide) (by rfl)

/-- C13 (failing input): after `my_malloc(40)` the high-water mark is 64; the
call `my_malloc(2^64 - 64)` succeeds (`heap_offset + total_size` wraps to 24) and
leaves the high-water mark at 24, below its value before the call. -/
theorem heap_offset_decreases :
    ∃ h1 h2 : Heap,
      my_malloc 0 empty_heap 40 = some (some 24, h1) ∧
      h1.heap_offset = 64 ∧
      my_malloc 1 h1 (2 ^ 64 - 64) = some (some 88, h2) ∧
      h2.heap_offset = 24 ∧
      h2.heap_offset < h1.heap_offset := by
  refine ⟨_, _, rfl, by decide, rfl, by decide, by decide⟩

/-- C15: in a well-formed state whose list is `l1 ++ b :: l2`, when
`find_free_block` returns `b` for the aligned request `r = align_size s`
(`s > 0`), `b` is the first fitting free block (nothing in `l1` fits, `b` is
free with size `F >= r`) and `my_malloc(s)` returns the payload of `b` without
moving `heap_start` or `heap_offset`.  If `F >= r + BLOCK_HEADER_SIZE +
MIN_BLOCK_SIZE`, then afterwards `b` is non-free with size exactly `r` and is
linked to a new free block of size `F - r - BLOCK_HEADER_SIZE` whose header is at
`b + BLOCK_HEADER_SIZE + r` and whose `next` is the old `next` of `b`; the list
is `l1 ++ b :: new :: l2` and no other header changed.  Otherwise `b` keeps size
`F` and its link, is marked non-free, and the list is still `l1 ++ b :: l2`. -/
theorem my_malloc_reuse_split (fuel : Nat) (h : Heap) (l1 l2 : List Nat) (s b : Nat)
    (hwf : WellFormed h (l1 ++ b :: l2)) (hs : 0 < s)
    (hfind : find_free_block fuel h (align_size s) = some (some b)) :
    ∃ h1,
      my_malloc fuel h s = some (some (b + BLOCK_HEADER_SIZE), h1) ∧
      (∀ q ∈ l1, ¬ fits h.mem (align_size s) q) ∧
      (h.mem b).is_free ≠ 0 ∧ align_size s ≤ (h.mem b).size ∧
      h1.heap_start = h.heap_start ∧ h1.heap_offset = h.heap_offset ∧
      ((h.mem b).size ≥ align_size s + BLOCK_HEADER_SIZE + MIN_BLOCK_SIZE →
        h1.mem b = { size := align_size s, is_free := 0,
                     next := some (b + BLOCK_HEADER_SIZE + align_size s) } ∧
        h1.mem (b + BLOCK_HEADER_SIZE + align_size s)
          = { size := (h.mem b).size - align_size s - BLOCK_HEADER_SIZE, is_free := 1,
              next := (h.mem b).next } ∧
        (∀ q, q ≠ b → q ≠ b + BLOCK_HEADER_SIZE + align_size s → h1.mem q = h.mem q) ∧
        block_list (l1.length + l2.length + 2) h1
          = some (l1 ++ b :: (b + BLOCK_HEADER_SIZE + align_size s) :: l2)) ∧
      ((h.mem b).size < align_size s + BLOCK_HEADER_SIZE + MIN_BLOCK_SIZE →
        h1.mem b = { size := (h.mem b).size, is_free := 0, next := (h.mem b).next } ∧
        (∀ q, q ≠ b → h1.mem q = h.mem q) ∧
        block_list (l1.length + l2.length + 1) h1 = some (l1 ++ b :: l2)) := by
  obtain ⟨hfit, hbefore⟩ := wellformed_first_fit fuel h l1 l2 _ b hwf hfind
  obtain ⟨hc1, hp1⟩ := wellformed_clear_flag h _ b hwf
  have hend := hwf.2.2.1 b (by simp)
  have hcap := hwf.2.2.2
  have hsz : (set_is_free h.mem b 0 b).size + BLOCK_HEADER_SIZE + MIN_BLOCK_SIZE < SIZE_MOD := by
    rw [set_is_free_size]
    unfold payload_end at hend
    unfold BLOCK_HEADER_SIZE MIN_BLOCK_SIZE SIZE_MOD HEAP_SIZE at *
    omega
  have hr : align_size s ≤ (set_is_free h.mem b 0 b).size := by
    rw [set_is_free_size]; exact hfit.2
  obtain ⟨hwhole, hsplit⟩ :=
    split_block_in_list (set_is_free h.mem b 0) h.heap_start l1 l2 b (align_size s)
      hc1 hp1 hsz (by
        unfold payload_end at hend ⊢
        rw [set_is_free_size]
        unfold SIZE_MOD HEAP_SIZE at *
        omega) hr
  rw [set_is_free_size] at hwhole hsplit
  refine ⟨_, my_malloc_reuse fuel h s b hs hfind, hbefore, hfit.1, hfit.2,
    rfl, rfl, ?_, ?_⟩
  · intro hge
    obtain ⟨s1, s2, s3, _, s5, _⟩ := hsplit hge
    refine ⟨?_, ?_, ?_, ?_⟩
    · show split_block (set_is_free h.mem b 0) b (align_size s) b = _
      rw [s1, set_is_free_same]
    · show split_block (set_is_free h.mem b 0) b (align_size s) _ = _
      rw [s2, set_is_free_next]
    · intro q hq1 hq2
      show split_block (set_is_free h.mem b 0) b (align_size s) q = _
      rw [s3 q hq1 hq2, set_is_free_other _ _ _ _ hq1]
    · apply block_list_of_chain _ _ _ _ s5
      simp only [List.length_append, List.length_cons]
      omega
  · intro hlt
    have hm := hwhole hlt
    refine ⟨?_, ?_, ?_⟩
    · show split_block (set_is_free h.mem b 0) b (align_size s) b = _
      rw [hm, set_is_free_same]
    · intro q hq
      show split_block (set_is_free h.mem b 0) b (align_size s) q = _
      rw [hm, set_is_free_other _ _ _ _ hq]
    · apply block_list_of_chain _ _ _ _ _
        (by simp only [List.length_append, List.length_cons]; omega)
      show Chain (split_block (set_is_free h.mem b 0) b (align_size s)) h.heap_start _
      rw [hm]
      exact hc1

/-- Witness for C15: in `sample_heap` a request of 10 bytes (aligned to 16) is
served by the free 200-byte block at offset 72, which is split into a 16-byte
block in use and a free 160-byte block at offset 112; a request of 150 bytes
(aligned to 152) is served by the same block, which is kept whole. -/
theorem my_malloc_reuse_split_witness :
    WellFormed sample_heap ([0, 40] ++ 72 :: []) ∧
    find_free_block 3 sample_heap (align_size 10) = some (some 72) ∧
    (sample_heap.mem 72).size ≥ align_size 10 + BLOCK_HEADER_SIZE + MIN_BLOCK_SIZE ∧
    (∃ h1, my_malloc 3 sample_heap 10 = some (some 96, h1) ∧
      h1.mem 72 = { size := 16, is_free := 0, next := some 112 } ∧
      h1.mem 112 = { size := 160, is_free := 1, next := none } ∧
      block_list 4 h1 = some [0, 40, 72, 112]) ∧
    find_free_block 3 sample_heap (align_size 150) = some (some 72) ∧
    (sample_heap.mem 72).size < align_size 150 + BLOCK_HEADER_SIZE + MIN_BLOCK_SIZE ∧
    (∃ h1, my_malloc 3 sample_heap 150 = some (some 96, h1) ∧
      h1.mem 72 = { size := 200, is_free := 0, next := none } ∧
      block_list 3 h1 = some [0, 40, 72]) := by
  refine ⟨by decide, by decide, by decide, ?_, by decide, by decide, ?_⟩
  · obtain ⟨h1, hm, _, _, _, _, _, hsplit, _⟩ :=
      my_malloc_reuse_split 3 sample_heap [0, 40] [] 10 72 (by decide) (by decide) (by decide)
    obtain ⟨e1, e2, _, e4⟩ := hsplit (by decide)
    exact ⟨h1, hm, e1, e2, e4⟩
  · obtain ⟨h1, hm, _, _, _, _, _, _, hwhole⟩ :=
      my_malloc_reuse_split 3 sample_heap [0, 40] [] 150 72 (by decide) (by decide) (by decide)
    obtain ⟨e1, _, e3⟩ := hwhole (by decide)
    exact ⟨h1, hm, e1, e3⟩

/-- C16: whenever the block list of a state is `l` (the walk from `heap_start`
reaches `NULL`), `find_free_block(t)` returns, and what it returns is the first
block of `l` that is free with size at least `t`: it returns `NULL` exactly when
`l` is empty or no block passes the test, and when it returns `b` then `b`
passes the test and `l = l1 ++ b :: l2` with no block of `l1` passing it. -/
theorem find_free_block_first_fit (fuel : Nat) (h : Heap) (t : Nat) (l : List Nat)
    (hl : block_list fuel h = some l) :
    ∃ r, find_free_block fuel h t = some r ∧
      r = l.find? (fun p => decide (fits h.mem t p)) ∧
      (r = none ↔ (l = [] ∨ ∀ q ∈ l, ¬ fits h.mem t q)) ∧
      (∀ b, r = some b → fits h.mem t b ∧
        ∃ l1 l2, l = l1 ++ b :: l2 ∧ ∀ q ∈ l1, ¬ fits h.mem t q) := by
  have hc := chain_of_block_list h.mem l fuel h.heap_start hl
  have hlen := chain_length_le h.mem l fuel h.heap_start hl
  refine ⟨_, find_free_block_loop_eq_find h.mem t l fuel h.heap_start hc hlen, rfl, ?_, ?_⟩
  · rw [List.find?_eq_none]
    constructor
    · intro hn
      right
      intro q hq
      simpa using hn q hq
    · intro hn q hq
      rcases hn with hn | hn
      · subst hn; simp at hq
      · simpa using hn q hq
  · intro b hb
    obtain ⟨h1, l1, l2, h2, h3⟩ := List.find?_eq_some.1 hb
    refine ⟨by simpa using h1, l1, l2, h2, ?_⟩
    intro q hq
    simpa using h3 q hq

/-- Witness for C16: the list of `sample_heap` is `[0, 40, 72]`, and the search
for 16 bytes skips the block in use at 0 and the free 8-byte block at 40. -/
theorem find_free_block_first_fit_witness :
    block_list 3 sample_heap = some [0, 40, 72] ∧
    ∃ r, find_free_block 3 sample_heap 16 = some r ∧
      r = [0, 40, 72].find? (fun p => decide (fits sample_heap.mem 16 p)) ∧
      (r = none ↔ (([0, 40, 72] : List Nat) = [] ∨ ∀ q ∈ [0, 40, 72], ¬ fits sample_heap.mem 16 q)) ∧
      (∀ b, r = some b → fits sample_heap.mem 16 b ∧
        ∃ l1 l2, [0, 40, 72] = l1 ++ b :: l2 ∧ ∀ q ∈ l1, ¬ fits sample_heap.mem 16 q) :=
  ⟨by decide, find_free_block_first_fit 3 sample_heap 16 [0, 40, 72] (by decide)⟩

/-- C18 (failing input): after `my_malloc(40)`, `my_malloc(2^64 - 64)`,
`my_malloc(8)` from the empty arena the block list is `[0, 64, 24]`: the
successor of the block at offset 64 is the block at offset 24, a smaller
address. -/
theorem list_order_not_ascending :
    ∃ h : Heap,
      run_mallocs 2 empty_heap [40, 2 ^ 64 - 64, 8]
        = some ([some 24, some 88, some 48], h) ∧
      Reachable h ∧
      block_list 3 h = some [0, 64, 24] ∧
      (h.mem 64).next = some 24 ∧ ¬ (64 < 24) := by
  refine ⟨_, rfl, ?_, by decide, by decide, by decide⟩
  exact reachable_run_mallocs 2 [40, 2 ^ 64 - 64, 8] empty_heap _
      [some 24, some 88, some 48] Reachable.empty (by decide) (by rfl)

/-- On a state the program reaches, in the byte-layout model: after
`my_malloc(2^64 - 16)`, `my_malloc(8)`, `my_malloc(2^64 - 8)` the headers at
offsets 0 and 8 overlap, `get_total_heap_size` returns 56 and the search for 8
bytes returns the block at 0.  The next `my_malloc(8)` is served by reusing and
splitting that block, and `get_total_heap_size` then returns
`0xFFFFFFFF00000039`: the remainder's header, written at offset 32, has changed
the `size` field of the block at 40. -/
theorem layout_reuse_changes_total :
    [0x404060, 0x555555558060, 0xFFFFFFF8].map (fun base =>
      (Layout.run_mallocs base 3 Layout.empty_heap [2 ^ 64 - 16, 8, 2 ^ 64 - 8]).map
        (fun r =>
          (Layout.get_total_heap_size_loop base r.2.words 3 r.2.heap_start 0,
            Layout.find_free_block_loop base r.2.words (align_size 8) 3 r.2.heap_start,
            (Layout.my_malloc base 3 r.2 8).map (fun r1 =>
              (r1.1, Layout.get_total_heap_size_loop base r1.2.words 4 r1.2.heap_start 0)))))
      = List.replicate 3
          (some (some 56, some (some 0), some (some 24, some 0xFFFFFFFF00000039))) := by
  rfl

/-- C20 (counterexample): `overlapping_heap` has the `NULL`-terminated block list
`[0, 40]`, on which `get_total_heap_size` returns 256, and its block at 0 has
size 200, so the request size 16 is at most the block's size.  The list is not
well formed: the header at 40 lies inside the payload of the block at 0.
`split_block(0, 16)` writes the remainder's header at offset `0 + 24 + 16 = 40`,
over that block, and gives it the old `next` of the block at 0, which is 40: the
block at 40 is linked to itself and `get_total_heap_size` never returns,
whatever the fuel, so the sum over the list is not what it was.  The same
happens in the call `my_malloc(16)`, which is served by reusing the free block
at 0. -/
theorem split_block_self_links_overlapping_list :
    block_list 2 overlapping_heap = some [0, 40] ∧
    ¬ WellFormed overlapping_heap [0, 40] ∧
    get_total_heap_size 2 overlapping_heap = some 256 ∧
    16 ≤ (overlapping_heap.mem 0).size ∧
    (split_block overlapping_heap.mem 0 16 40).next = some 40 ∧
    (∀ fuel, get_total_heap_size fuel
        { overlapping_heap with mem := split_block overlapping_heap.mem 0 16 } = none) ∧
    ∃ h1 : Heap,
      find_free_block 2 overlapping_heap (align_size 16) = some (some 0) ∧
      my_malloc 2 overlapping_heap 16 = some (some 24, h1) ∧
      (h1.mem 0).next = some 40 ∧ (h1.mem 40).next = some 40 ∧
      ∀ fuel, get_total_heap_size fuel h1 = none := by
  refine ⟨by decide, by decide, by decide, by decide, by decide, ?_,
    _, by decide, rfl, by decide, by decide, ?_⟩
  · intro fuel
    cases fuel with
    | zero => rfl
    | succ n =>
      exact get_total_heap_size_loop_self_link _ 40 (by decide) n _
  · intro fuel
    cases fuel with
    | zero => rfl
    | succ n =>
      exact get_total_heap_size_loop_self_link _ 40 (by decide) n _

/-- C20 (amended): in a well-formed state with list `l1 ++ b :: l2` and for every
`r <= (size of b)`, `get_total_heap_size` returns the sum of
`size + BLOCK_HEADER_SIZE` over the list, and it returns the same value after
`split_block(b, r)`, whether or not the block is split; hence every `my_malloc`
that is served by reusing `b` leaves `get_total_heap_size` unchanged. -/
theorem split_block_preserves_total (fuel : Nat) (h : Heap) (l1 l2 : List Nat) (b r : Nat)
    (hwf : WellFormed h (l1 ++ b :: l2)) (hr : r ≤ (h.mem b).size)
    (hfuel : l1.length + l2.length + 2 ≤ fuel) :
    ∃ total,
      get_total_heap_size fuel h = some total ∧
      total = total_of h.mem (l1 ++ b :: l2) % SIZE_MOD ∧
      get_total_heap_size fuel { h with mem := split_block h.mem b r } = some total ∧
      ∀ s, 0 < s → find_free_block fuel h (align_size s) = some (some b) →
        ∃ h1, my_malloc fuel h s = some (some (b + BLOCK_HEADER_SIZE), h1) ∧
          get_total_heap_size fuel h1 = some total := by
  have hc := chain_of_block_list h.mem _ _ h.heap_start hwf.1
  have hend := hwf.2.2.1 b (by simp)
  have hcap := hwf.2.2.2
  have hlen : (l1 ++ b :: l2).length ≤ fuel := by
    simp only [List.length_append, List.length_cons]; omega
  have hlen2 : (l1 ++ b :: (b + BLOCK_HEADER_SIZE + r) :: l2).length ≤ fuel := by
    simp only [List.length_append, List.length_cons]; omega
  have hM : (0 : Nat) < SIZE_MOD := by unfold SIZE_MOD; norm_num
  have hbase : get_total_heap_size fuel h
      = some (total_of h.mem (l1 ++ b :: l2) % SIZE_MOD) := by
    unfold get_total_heap_size
    rw [chain_get_total_heap_size h.mem _ _ fuel 0 hc hlen hM, Nat.zero_add]
  have hsz : (h.mem b).size + BLOCK_HEADER_SIZE + MIN_BLOCK_SIZE < SIZE_MOD := by
    unfold payload_end at hend
    unfold BLOCK_HEADER_SIZE MIN_BLOCK_SIZE SIZE_MOD HEAP_SIZE at *
    omega
  refine ⟨_, hbase, rfl, ?_, ?_⟩
  · obtain ⟨hwhole, hsplit⟩ :=
      split_block_in_list h.mem h.heap_start l1 l2 b r hc hwf.2.1 hsz
        (by unfold SIZE_MOD HEAP_SIZE at *; omega) hr
    by_cases hge : (h.mem b).size ≥ r + BLOCK_HEADER_SIZE + MIN_BLOCK_SIZE
    · obtain ⟨_, _, _, _, s5, s6⟩ := hsplit hge
      unfold get_total_heap_size
      show get_total_heap_size_loop (split_block h.mem b r) fuel h.heap_start 0 = _
      rw [chain_get_total_heap_size _ _ _ fuel 0 s5 hlen2 hM, Nat.zero_add, s6]
    · have hm := hwhole (by omega)
      unfold get_total_heap_size
      show get_total_heap_size_loop (split_block h.mem b r) fuel h.heap_start 0 = _
      rw [hm, chain_get_total_heap_size h.mem _ _ fuel 0 hc hlen hM, Nat.zero_add]
  · intro s hs hfind
    obtain ⟨hfit, _⟩ := wellformed_first_fit fuel h l1 l2 _ b hwf hfind
    obtain ⟨hc1, hp1⟩ := wellformed_clear_flag h _ b hwf
    have hsz1 : (set_is_free h.mem b 0 b).size + BLOCK_HEADER_SIZE + MIN_BLOCK_SIZE
        < SIZE_MOD := by rw [set_is_free_size]; exact hsz
    have hr1 : align_size s ≤ (set_is_free h.mem b 0 b).size := by
      rw [set_is_free_size]; exact hfit.2
    obtain ⟨hwhole, hsplit⟩ :=
      split_block_in_list (set_is_free h.mem b 0) h.heap_start l1 l2 b (align_size s)
        hc1 hp1 hsz1 (by
          unfold payload_end at hend ⊢
          rw [set_is_free_size]
          unfold SIZE_MOD HEAP_SIZE at *
          omega) hr1
    have htot1 : total_of (set_is_free h.mem b 0) (l1 ++ b :: l2)
        = total_of h.mem (l1 ++ b :: l2) :=
      total_of_congr _ _ _ (fun q _ => set_is_free_size h.mem b 0 q)
    have hlen3 : (l1 ++ b :: (b + BLOCK_HEADER_SIZE + align_size s) :: l2).length ≤ fuel := by
      simp only [List.length_append, List.length_cons]; omega
    refine ⟨_, my_malloc_reuse fuel h s b hs hfind, ?_⟩
    unfold get_total_heap_size
    show get_total_heap_size_loop (split_block (set_is_free h.mem b 0) b (align_size s))
      fuel h.heap_start 0 = _
    by_cases hge : (set_is_free h.mem b 0 b).size
        ≥ align_size s + BLOCK_HEADER_SIZE + MIN_BLOCK_SIZE
    · obtain ⟨_, _, _, _, s5, s6⟩ := hsplit hge
      rw [chain_get_total_heap_size _ _ _ fuel 0 s5 hlen3 hM, Nat.zero_add, s6, htot1]
    · have hm := hwhole (by omega)
      rw [hm, chain_get_total_heap_size _ _ _ fuel 0 hc1 hlen hM, Nat.zero_add, htot1]

/-- Witness for C20 (amended): in `sample_heap` the total is 296 before and after
splitting the 200-byte block at offset 72 for a 16-byte request. -/
theorem split_block_preserves_total_witness :
    WellFormed sample_heap ([0, 40] ++ 72 :: []) ∧
    16 ≤ (sample_heap.mem 72).size ∧
    (∃ total,
      get_total_heap_size 4 sample_heap = some total ∧
      total = total_of sample_heap.mem ([0, 40] ++ 72 :: []) % SIZE_MOD ∧
      get_total_heap_size 4 { sample_heap with mem := split_block sample_heap.mem 72 16 }
        = some total ∧
      ∀ s, 0 < s → find_free_block 4 sample_heap (align_size s) = some (some 72) →
        ∃ h1, my_malloc 4 sample_heap s = some (some (72 + BLOCK_HEADER_SIZE), h1) ∧
          get_total_heap_size 4 h1 = some total) ∧
    get_total_heap_size 4 sample_heap = some 296 ∧
    block_list 4 { sample_heap with mem := split_block sample_heap.mem 72 16 }
      = some [0, 40, 72, 112] :=
  ⟨by decide, by decide, split_block_preserves_total 4 sample_heap [0, 40] [] 72 16 (by decide) (by decide) (by decide),
    by decide, by decide⟩

/-- C14 (failing input): in the byte-layout model, from the empty arena the
calls `my_malloc(2^64 - 16)`, `my_malloc(8)`, `my_malloc(2^64 - 8)`,
`my_malloc(8)` all return a pointer.  The first leaves `heap_offset` at 8, so
the second header starts 8 bytes behind the first and its `size` field is the
first block's `is_free` field: the block at 0 now tests as free.  The third
request fits no block and is provisioned at offset 40.  The fourth reuses and
splits the block at 0; the remainder's header is written at offset 32 and its
`is_free = 1` lands in the low half of the word at 40, the `size` field of the
block provisioned there.  The list is then `[0, 32, 8, 40]` and the block at 40
has size `0xFFFFFFFF00000001`, which is not a multiple of 8.  The outcome is the
same for each of the sample addresses of `heap_buffer` (the third makes the one
address-dependent test of the run, the free flag read at offset 8 in the third
call, come out the other way). -/
theorem size_field_clobbered_by_overlapping_header :
    [0x404060, 0x555555558060, 0xFFFFFFF8].map (fun base =>
      (Layout.run_mallocs base 3 Layout.empty_heap [2 ^ 64 - 16, 8, 2 ^ 64 - 8, 8]).map
          (fun r => (r.1, Layout.block_list_loop base r.2.words 4 r.2.heap_start,
            Layout.get_size r.2.words 40, Layout.get_size r.2.words 40 % 8)))
      = List.replicate 3 (some ([some 24, some 32, some 64, some 24], some [0, 32, 8, 40],
            0xFFFFFFFF00000001, 1)) := by
  decide

/-- C17 (failing input): the state reached by `my_malloc(8)` is well formed,
with list `[0]` and high-water mark 32, and holds no free block; the call
`my_malloc(2^64 - 56)` succeeds on the provisioning path and appends the new
block at the tail (list `[0, 32]`), but the high-water mark does not advance by
`BLOCK_HEADER_SIZE + align_size s`: it goes from 32 back to 0. -/
theorem provision_moves_heap_offset_backwards :
    ∃ h1 h2 : Heap,
      my_malloc 0 empty_heap 8 = some (some 24, h1) ∧
      WellFormed h1 [0] ∧ h1.heap_offset = 32 ∧
      find_free_block 1 h1 (align_size (2 ^ 64 - 56)) = some none ∧
      my_malloc 1 h1 (2 ^ 64 - 56) = some (some 56, h2) ∧
      block_list 2 h2 = some [0, 32] ∧
      h2.heap_offset = 0 ∧
      h2.heap_offset ≠ h1.heap_offset + BLOCK_HEADER_SIZE + align_size (2 ^ 64 - 56) := by
  refine ⟨_, _, rfl, by decide, by decide, by decide, rfl, by decide, by decide, by decide⟩

/-- C19 (failing input): for the requests `2^64 - 24`, `8`, `8` the pure bump
allocator returns three pointers and holds three blocks.  In `my_malloc` the
first two calls return the same two pointers, but the second block is written
over the first and linked to itself: the walk of the list never ends,
`find_free_block` does not return (so it does not return not-found), and the
third `my_malloc(8)` never returns, whatever the fuel.  Moreover, in the
byte-layout model the calls `my_malloc(2^64 - 16)`, `my_malloc(8)` leave the
block at offset 0 with a non-zero `is_free` field (the `size` field of the
second header lies on it): a block tests as free although nothing was freed. -/
theorem bump_allocator_diverges :
    bump_run { blocks := [], hwm := 0 } [2 ^ 64 - 24, 8, 8]
      = ([some 24, some 24, some 56],
          { blocks := [(0, 2 ^ 64 - 24), (0, 8), (32, 8)], hwm := 64 }) ∧
    (∃ h : Heap,
      run_mallocs 1 empty_heap [2 ^ 64 - 24, 8] = some ([some 24, some 24], h) ∧
      Reachable h ∧
      (∀ fuel, block_list fuel h = none) ∧
      (∀ fuel, find_free_block fuel h (align_size 8) = none) ∧
      (∀ fuel, my_malloc fuel h 8 = none)) ∧
    [0x404060, 0x555555558060, 0xFFFFFFF8].map (fun base =>
      (Layout.run_mallocs base 1 Layout.empty_heap [2 ^ 64 - 16, 8]).map
          (fun r => (r.1, Layout.block_list_loop base r.2.words 2 r.2.heap_start,
            Layout.get_is_free r.2.words 0)))
      = List.replicate 3 (some ([some 24, some 32], some [0, 8], 8)) := by
  refine ⟨by decide, ⟨_, rfl, ?_, ?_, ?_, ?_⟩, by decide⟩
  · exact reachable_run_mallocs 1 [2 ^ 64 - 24, 8] empty_heap _
      [some 24, some 24] Reachable.empty (by decide) (by rfl)
  · intro fuel
    exact block_list_loop_self_link _ 0 (by decide) fuel
  · intro fuel
    exact find_free_block_loop_self_link _ _ 0 (by decide) (by decide) fuel
  · intro fuel
    exact my_malloc_self_link fuel _ 8 0 (by decide) (by rfl) (by decide) (by decide)

end MyMalloc
